import Mathlib

/-!
Verification development for the przntr presentation-description parser.

The definitions below are a shallow embedding of the repository's Rust
sources (src/parsing/tokenizer.rs, src/parsing/token_stream.rs,
src/parsing/parser.rs, src/presentation.rs).  Strings are modelled as
lists of characters; the `CharIndices` iterator of the tokenizer is
modelled as the list of remaining characters together with the numeric
index of the next character.  Indices are character offsets; the Rust
code uses byte offsets, but every offset it slices at is a character
boundary produced by the iterator, so the two give the same slices.
The `u32` line/column counters wrap at 2^32 as in Rust.
-/

set_option maxRecDepth 100000

deriving instance DecidableEq for Except

namespace Przntr

def U32 : Nat := 4294967296

/-- `SourceLocation` from token_stream.rs: zero-based line and column. -/
structure SourceLocation where
  line : Nat
  column : Nat
deriving DecidableEq, Repr

def SourceLocation.new (line column : Nat) : SourceLocation := ⟨line, column⟩

/-- `SourceLocationRange` from token_stream.rs: an ordered pair of locations. -/
structure SourceLocationRange where
  start : SourceLocation
  stop : SourceLocation
deriving DecidableEq, Repr

def SourceLocationRange.new (a b : SourceLocation) : SourceLocationRange := ⟨a, b⟩

def SourceLocationRange.new_single (a : SourceLocation) : SourceLocationRange := ⟨a, a⟩

/-- The `Token` enum as used by tokenizer.rs and parser.rs. -/
inductive Token where
  | Name (s : List Char)
  | String (s : List Char)
  | Integer (v : Int)
  | OpeningBrace
  | ClosingBrace
  | Comma
  | KeywordSlide
  | KeywordTitle
  | KeywordMetadata
  | KeywordStyle
  | KeywordFont
  | KeywordName
  | KeywordPath
  | KeywordWeight
  | KeywordItalic
deriving DecidableEq, Repr

/-- `TokenizerFailureKind` as used by tokenizer.rs. -/
inductive TokenizerFailureKind where
  | UnexpectedCharacterInName (index : Nat) (character : Char)
  | UnclosedString
  | UnknownEscapeSequence (c : Char)
  | UnfinishedEscapeSequence
  | UnexpectedCharacter (c : Char)
  | InvalidIntegerValue (s : List Char)
deriving DecidableEq, Repr

structure TokenizerFailure where
  location : SourceLocation
  kind : TokenizerFailureKind
deriving DecidableEq, Repr

def TokenizerFailure.new (location : SourceLocation) (kind : TokenizerFailureKind) :
    TokenizerFailure := ⟨location, kind⟩

inductive TokenizerResult where
  | Ok (t : Token) (r : SourceLocationRange)
  | Err (f : TokenizerFailure)
  | End
deriving DecidableEq, Repr

/-- Rust `char::is_ascii_alphabetic`. -/
def is_ascii_alphabetic (c : Char) : Bool :=
  (65 ≤ c.toNat && c.toNat ≤ 90) || (97 ≤ c.toNat && c.toNat ≤ 122)

/-- Rust `char::is_ascii_digit`. -/
def is_ascii_digit (c : Char) : Bool :=
  48 ≤ c.toNat && c.toNat ≤ 57

def is_ascii_alphanumeric (c : Char) : Bool :=
  is_ascii_alphabetic c || is_ascii_digit c

/-- Rust `char::is_ascii_whitespace`: space, tab, newline, carriage return, form feed. -/
def is_ascii_whitespace (c : Char) : Bool :=
  c = ' ' || c = '\t' || c = '\n' || c = '\x0d' || c = '\x0c'

/-- `Tokenizer::is_name_character`. -/
def is_name_character (c : Char) : Bool :=
  is_ascii_alphanumeric c || c = '_' || c = '-'

/-- The keyword table of `Tokenizer::handle_name_or_keyword`. -/
def keywordOf (name : List Char) : Token :=
  if name = "slide".data then .KeywordSlide
  else if name = "title".data then .KeywordTitle
  else if name = "metadata".data then .KeywordMetadata
  else if name = "style".data then .KeywordStyle
  else if name = "font".data then .KeywordFont
  else if name = "name".data then .KeywordName
  else if name = "path".data then .KeywordPath
  else if name = "weight".data then .KeywordWeight
  else if name = "italic".data then .KeywordItalic
  else .Name name

/-- The slice `data[a..b]` of the input, at character-boundary offsets. -/
def slice (data : List Char) (a b : Nat) : List Char :=
  (data.drop a).take (b - a)

/-- Rust `str::replace("\\\"", "\"")`: left-to-right non-overlapping
replacement of the two-character sequence backslash-quote by a quote. -/
def replaceEsc : List Char → List Char
  | [] => []
  | '\\' :: '"' :: rest => '"' :: replaceEsc rest
  | c :: rest => c :: replaceEsc rest

def digitsToNat (ds : List Char) : Nat :=
  ds.foldl (fun a c => a * 10 + (c.toNat - 48)) 0

/-- Rust `str::parse::<i128>()` on the texts the tokenizer can produce:
an optional sign followed by at least one digit, within i128 range. -/
def parse_i128 (s : List Char) : Option Int :=
  let core (ds : List Char) (neg : Bool) : Option Int :=
    if ds = [] then none
    else if ds.all is_ascii_digit then
      let v : Int := Int.ofNat (digitsToNat ds)
      let v := if neg then -v else v
      if -(2 ^ 127) ≤ v ∧ v ≤ 2 ^ 127 - 1 then some v else none
    else none
  match s with
  | '-' :: ds => core ds true
  | '+' :: ds => core ds false
  | ds => core ds false

/-- The `Tokenizer` struct: `data` is the full input, `rest` the characters
not yet consumed by the `CharIndices` iterator, `index` the offset of the
next character. -/
structure Tokenizer where
  data : List Char
  rest : List Char
  index : Nat
  is_failed : Bool
  line : Nat
  column : Nat
deriving DecidableEq, Repr

def Tokenizer.new (s : String) : Tokenizer :=
  { data := s.data, rest := s.data, index := 0, is_failed := false, line := 0, column := 0 }

def Tokenizer.current_location (t : Tokenizer) : SourceLocation :=
  SourceLocation.new t.line t.column

/-- The state effect of `Tokenizer::read_next` when it yields the character
`c` with the remaining iterator contents `rs`: the column advances, and a
newline additionally bumps the line and resets the column. -/
def Tokenizer.advance (t : Tokenizer) (c : Char) (rs : List Char) : Tokenizer :=
  if c = '\n' then
    { t with rest := rs, index := t.index + 1, line := (t.line + 1) % U32, column := 0 }
  else
    { t with rest := rs, index := t.index + 1, column := (t.column + 1) % U32 }

/-- `Tokenizer::check_next`: peek at the next character without consuming. -/
def Tokenizer.check_next (t : Tokenizer) (what : Char) : Bool :=
  match t.rest with
  | [] => false
  | x :: _ => x = what

def Tokenizer.handle_name_or_keyword (t : Tokenizer) (name : List Char)
    (start : SourceLocation) : TokenizerResult :=
  .Ok (keywordOf name) (SourceLocationRange.new start t.current_location)

def Tokenizer.handle_integer (t : Tokenizer) (integer : List Char)
    (start : SourceLocation) : TokenizerResult :=
  match parse_i128 integer with
  | some v => .Ok (.Integer v) (SourceLocationRange.new start t.current_location)
  | none => .Err (TokenizerFailure.new t.current_location (.InvalidIntegerValue integer))

/-- The transient per-call state of `Tokenizer::next`. -/
inductive TokenizerState where
  | NoneSt
  | ReadingName (start_index : Nat) (start_location : SourceLocation)
  | ReadingString (start_index : Nat) (start_location : SourceLocation)
  | ReadingNumber (start_index : Nat) (start_location : SourceLocation)
deriving DecidableEq, Repr

/-- The `match state` performed by `Tokenizer::next` after the `while let`
loop exhausts the input (note that the failing `read_next` call has already
advanced the column). -/
def Tokenizer.finish (t : Tokenizer) : TokenizerState → TokenizerResult
  | .ReadingName si sl => t.handle_name_or_keyword (t.data.drop si) sl
  | .NoneSt => .End
  | .ReadingString _ _ =>
      .Err (TokenizerFailure.new t.current_location .UnclosedString)
  | .ReadingNumber si sl => t.handle_integer (t.data.drop si) sl

/-- The `while let Some((index, character)) = self.read_next()` loop of
`Tokenizer::next`.  The third argument is the iterator contents, kept in
lock-step with `t.rest`; the Rust `match` arms are grouped by state, which
preserves their meaning since the state patterns are mutually exclusive. -/
def Tokenizer.nextLoop : TokenizerState → Tokenizer → List Char → TokenizerResult × Tokenizer
  | st, t, [] =>
      -- read_next returned None: the column was still incremented
      let t1 := { t with column := (t.column + 1) % U32 }
      (t1.finish st, t1)
  | .NoneSt, t, c :: rs =>
      let idx := t.index
      let t1 := t.advance c rs
      if is_ascii_alphabetic c then
        -- state := ReadingName { start_index: index, start_location: current }
        if t1.check_next ',' then
          (t1.handle_name_or_keyword (slice t1.data idx (idx + 1)) t1.current_location, t1)
        else
          Tokenizer.nextLoop (.ReadingName idx t1.current_location) t1 rs
      else if c = '"' then
        Tokenizer.nextLoop (.ReadingString idx t1.current_location) t1 rs
      else if is_ascii_digit c || c = '-' then
        Tokenizer.nextLoop (.ReadingNumber idx t1.current_location) t1 rs
      else if is_ascii_whitespace c then
        Tokenizer.nextLoop .NoneSt t1 rs
      else if c = '{' then
        (.Ok .OpeningBrace (SourceLocationRange.new_single t1.current_location), t1)
      else if c = '}' then
        (.Ok .ClosingBrace (SourceLocationRange.new_single t1.current_location), t1)
      else if c = ',' then
        (.Ok .Comma (SourceLocationRange.new_single t1.current_location), t1)
      else
        (.Err (TokenizerFailure.new t1.current_location (.UnexpectedCharacter c)), t1)
  | .ReadingName si sl, t, c :: rs =>
      let idx := t.index
      let t1 := t.advance c rs
      let is_next_character_a_comma := t1.check_next ','
      if is_name_character c && !is_next_character_a_comma then
        Tokenizer.nextLoop (.ReadingName si sl) t1 rs
      else if is_ascii_whitespace c || is_next_character_a_comma then
        let actual_index := (if is_next_character_a_comma then 1 else 0) + idx
        (t1.handle_name_or_keyword (slice t1.data si actual_index) sl, t1)
      else
        let t2 := { t1 with is_failed := true }
        (.Err (TokenizerFailure.new t2.current_location
          (.UnexpectedCharacterInName idx c)), t2)
  | .ReadingString si sl, t, c :: rs =>
      let idx := t.index
      let t1 := t.advance c rs
      if c = '\\' then
        match rs with
        | '"' :: rs2 =>
            -- the peeked quote is consumed by a second read_next
            Tokenizer.nextLoop (.ReadingString si sl) (t1.advance '"' rs2) rs2
        | d :: _ =>
            let t2 := { t1 with is_failed := true }
            (.Err (TokenizerFailure.new t2.current_location (.UnknownEscapeSequence d)), t2)
        | [] =>
            (.Err (TokenizerFailure.new t1.current_location .UnfinishedEscapeSequence), t1)
      else if c = '"' then
        (.Ok (.String (replaceEsc (slice t1.data (si + 1) idx)))
          (SourceLocationRange.new sl t1.current_location), t1)
      else
        Tokenizer.nextLoop (.ReadingString si sl) t1 rs
  | .ReadingNumber si sl, t, c :: rs =>
      let idx := t.index
      let t1 := t.advance c rs
      match rs with
      | [] => (t1.handle_integer (slice t1.data si (idx + 1)) sl, t1)
      | d :: _ =>
          if !is_ascii_digit d then
            (t1.handle_integer (slice t1.data si (idx + 1)) sl, t1)
          else
            Tokenizer.nextLoop (.ReadingNumber si sl) t1 rs

/-- `Tokenizer::next` (the `TokenStream` impl): the latched-failure check,
then the scanning loop. -/
def Tokenizer.next (t : Tokenizer) : TokenizerResult × Tokenizer :=
  if t.is_failed then (.End, t)
  else Tokenizer.nextLoop .NoneSt t t.rest

/-- Drive the tokenizer until it reports `End` (or fuel runs out),
collecting every produced result, `Err` included. -/
def runUntilEnd : Nat → Tokenizer → List TokenizerResult
  | 0, _ => []
  | fuel + 1, t =>
      match Tokenizer.next t with
      | (.End, _) => []
      | (r, t') => r :: runUntilEnd fuel t'

/-- The token of an `Ok` result. -/
def resTok : TokenizerResult → Option Token
  | .Ok tok _ => some tok
  | _ => none

/-! ## Document model (presentation.rs) -/

/-- `FontDescriptor` from presentation.rs (`weight` is a `u32`; values are
created by the `as u32` cast in parser.rs, hence below 2^32). -/
structure FontDescriptor where
  name : List Char
  weight : Nat
  italic : Bool
deriving DecidableEq, Repr

/-- `StyleError` from presentation.rs. -/
inductive StyleError where
  | DuplicateFont (d : FontDescriptor)
deriving DecidableEq, Repr

/-- `Slide` from presentation.rs. -/
structure Slide where
  name : List Char
deriving DecidableEq, Repr

def Slide.new (name : List Char) : Slide := ⟨name⟩

/-- `Font` from presentation.rs. -/
structure Font where
  path : List Char
  descriptor : FontDescriptor
deriving DecidableEq, Repr

def Font.new (name path : List Char) (weight : Nat) (italic : Bool) : Font :=
  { path := path, descriptor := { name := name, weight := weight, italic := italic } }

/-- `Style` from presentation.rs; the `HashMap<FontDescriptor, Font>` is
modelled as an association list in insertion order. -/
structure Style where
  fonts : List (FontDescriptor × Font)
deriving DecidableEq, Repr

/-- `HashMap::insert`: replaces the value at an existing key (keeping the
stored key) and returns the previous value, or appends a new binding. -/
def mapInsert : List (FontDescriptor × Font) → FontDescriptor → Font →
    Option Font × List (FontDescriptor × Font)
  | [], k, v => (none, [(k, v)])
  | (k', v') :: rest, k, v =>
      if k' = k then (some v', (k', v) :: rest)
      else
        let r := mapInsert rest k v
        (r.1, (k', v') :: r.2)

/-- `HashMap::get`-style lookup in the association-list model. -/
def mapLookup : List (FontDescriptor × Font) → FontDescriptor → Option Font
  | [], _ => none
  | (k', v') :: rest, k => if k' = k then some v' else mapLookup rest k

/-- Every binding of the map stores a font under its own descriptor — the
invariant of the maps built by `Style::new`. -/
def MapWF (m : List (FontDescriptor × Font)) : Prop :=
  ∀ kv ∈ m, (kv.2).descriptor = kv.1

/-- The insertion loop of `Style::new`: on a duplicate key the error carries
the descriptor of the previously stored font. -/
def Style.newAux : List (FontDescriptor × Font) → List Font →
    Except StyleError (List (FontDescriptor × Font))
  | m, [] => .ok m
  | m, font :: fs =>
      let r := mapInsert m font.descriptor font
      match r.1 with
      | some old => .error (.DuplicateFont old.descriptor)
      | none => Style.newAux r.2 fs

/-- `Style::new` from presentation.rs (the current, validating version). -/
def Style.new (fonts_input : List Font) : Except StyleError Style :=
  (Style.newAux [] fonts_input).map Style.mk

/-- The map built by the insertion loop of `Style::new`, without the
duplicate check.  parser.rs targets the pre-validation `Style::new` that
returned a `Style` directly (the checked in `presentation.rs` version
returns a `Result` the parser never unwraps); on the font lists the parser
actually builds (at most one font) the two constructions agree, see
`Style.new_singleton` and `Style.new_nil` below. -/
def Style.newList (fonts_input : List Font) : Style :=
  Style.mk (fonts_input.foldl (fun m f => (mapInsert m f.descriptor f).2) [])

/-- `Presentation` from presentation.rs (its title field is named `name`). -/
structure Presentation where
  name : List Char
  slides : List Slide
  style : Style
deriving DecidableEq, Repr

def Presentation.new (name : List Char) (slides : List Slide) (style : Style) :
    Presentation := ⟨name, slides, style⟩

/-! ## Token stream adapter (token_stream.rs) -/

/-- `PeekableTokenStream`, generic over the wrapped token source exactly as
the Rust struct is generic over `T: TokenStream`.  A token source is a
state type `σ` together with a `next` function. -/
structure PeekableTokenStream (σ : Type) where
  token_stream : σ
  peeked : Option TokenizerResult
deriving DecidableEq, Repr

/-- `TokenStream for PeekableTokenStream`: drain the cache, else delegate. -/
def PeekableTokenStream.next {σ : Type} (nextFn : σ → TokenizerResult × σ)
    (s : PeekableTokenStream σ) : TokenizerResult × PeekableTokenStream σ :=
  match s.peeked with
  | some p => (p, { s with peeked := none })
  | none =>
      let r := nextFn s.token_stream
      (r.1, { token_stream := r.2, peeked := none })

/-- `PeekableTokenStream::peek`: stores `Some(self.next())` then returns
(a reference to) it — the returned option is always `some`. -/
def PeekableTokenStream.peek {σ : Type} (nextFn : σ → TokenizerResult × σ)
    (s : PeekableTokenStream σ) : Option TokenizerResult × PeekableTokenStream σ :=
  let r := PeekableTokenStream.next nextFn s
  (some r.1, { r.2 with peeked := some r.1 })

/-- `MockTokenStream` from token_stream.rs: a drained vector of results,
yielding `End` once exhausted. -/
def tsListNext : List TokenizerResult → TokenizerResult × List TokenizerResult
  | [] => (.End, [])
  | r :: rs => (r, rs)

/-! ## Parser (parser.rs) -/

/-- `ParserError` from parser.rs (`actual` and `expected` are the strings
produced by `format!("{:?}", token)` and `stringify!`). -/
inductive ParserError where
  | UnexpectedToken (actual expected : String) (location : SourceLocationRange)
  | UnexpectedEndOfStream (expected : String)
  | TokenizerFailure (f : Przntr.TokenizerFailure)
deriving DecidableEq, Repr

/-- How a `parse` call can fail to produce a value: a returned
`ParserError`, one of the two panics in parser.rs (the `unwrap`s of
`parse_font` and the `unreachable!()` of `parse_style`), or exhaustion of
the fuel that makes the Rust loops structurally recursive here. -/
inductive ParseFailure where
  | err (e : ParserError)
  | panicUnwrap
  | panicUnreachable
  | fuelOut
deriving DecidableEq, Repr

/-- A parser outcome that is not the `unreachable!()` panic of
`parse_style`. -/
def NoUnreach {α : Type} (r : Except ParseFailure α) : Prop :=
  r ≠ .error .panicUnreachable

/-- Rust `Debug` escaping for the characters that can appear in the token
texts at hand. -/
def escapeDebug : List Char → List Char
  | [] => []
  | '"' :: rest => '\\' :: '"' :: escapeDebug rest
  | '\\' :: rest => '\\' :: '\\' :: escapeDebug rest
  | '\n' :: rest => '\\' :: 'n' :: escapeDebug rest
  | '\t' :: rest => '\\' :: 't' :: escapeDebug rest
  | '\x0d' :: rest => '\\' :: 'r' :: escapeDebug rest
  | c :: rest => c :: escapeDebug rest

/-- `format!("{:?}", token)` for the derived `Debug` of `Token`. -/
def debug_fmt : Token → String
  | .Name s => ⟨"Name(\"".data ++ escapeDebug s ++ "\")".data⟩
  | .String s => ⟨"String(\"".data ++ escapeDebug s ++ "\")".data⟩
  | .Integer v => ⟨"Integer(".data ++ (toString v).data ++ ")".data⟩
  | .OpeningBrace => "OpeningBrace"
  | .ClosingBrace => "ClosingBrace"
  | .Comma => "Comma"
  | .KeywordSlide => "KeywordSlide"
  | .KeywordTitle => "KeywordTitle"
  | .KeywordMetadata => "KeywordMetadata"
  | .KeywordStyle => "KeywordStyle"
  | .KeywordFont => "KeywordFont"
  | .KeywordName => "KeywordName"
  | .KeywordPath => "KeywordPath"
  | .KeywordWeight => "KeywordWeight"
  | .KeywordItalic => "KeywordItalic"

/-- `Parser::handle_invalid_result`. -/
def handle_invalid_result (r : TokenizerResult) (expected : String) : ParseFailure :=
  match r with
  | .Ok token location => .err (.UnexpectedToken (debug_fmt token) expected location)
  | .Err e => .err (.TokenizerFailure e)
  | .End => .err (.UnexpectedEndOfStream expected)

variable {σ : Type}

/-- One expansion of the `consume!` macro: take the next result, match the
token against the site's pattern (`m` returns the bound value on a match),
otherwise fail via `handle_invalid_result` with the site's
`stringify!`-derived expectation string. -/
def consumeTok (nextFn : σ → TokenizerResult × σ) {α : Type} (m : Token → Option α)
    (expected : String) (st : PeekableTokenStream σ) :
    Except ParseFailure (α × PeekableTokenStream σ) :=
  match PeekableTokenStream.next nextFn st with
  | (.Ok token location, st') =>
      match m token with
      | some a => .ok (a, st')
      | none => .error (.err (.UnexpectedToken (debug_fmt token) expected location))
  | (.Err e, _) => .error (.err (.TokenizerFailure e))
  | (.End, _) => .error (.err (.UnexpectedEndOfStream expected))

-- The per-site `consume!` patterns.

def mUnit (want : Token) : Token → Option Unit :=
  fun t => if t = want then some () else none

def mString : Token → Option (List Char)
  | .String s => some s
  | _ => none

def mName : Token → Option (List Char)
  | .Name s => some s
  | _ => none

def mInteger : Token → Option Int
  | .Integer v => some v
  | _ => none

/-- `Parser::parse_metadata`. -/
def parse_metadata (nextFn : σ → TokenizerResult × σ) (st : PeekableTokenStream σ) :
    Except ParseFailure (List Char × PeekableTokenStream σ) := do
  let (_, st) ← consumeTok nextFn (mUnit .KeywordMetadata) "KeywordMetadata" st
  let (_, st) ← consumeTok nextFn (mUnit .OpeningBrace) "OpeningBrace" st
  let (_, st) ← consumeTok nextFn (mUnit .KeywordTitle) "KeywordTitle" st
  let (title, st) ← consumeTok nextFn mString "String(title)" st
  let (_, st) ← consumeTok nextFn (mUnit .ClosingBrace) "ClosingBrace" st
  .ok (title, st)

/-- `Parser::parse_slide`. -/
def parse_slide (nextFn : σ → TokenizerResult × σ) (st : PeekableTokenStream σ) :
    Except ParseFailure (Slide × PeekableTokenStream σ) := do
  let (_, st) ← consumeTok nextFn (mUnit .KeywordSlide) "KeywordSlide" st
  let (slide_name, st) ← consumeTok nextFn mString "String(slide_name)" st
  let (_, st) ← consumeTok nextFn (mUnit .OpeningBrace) "OpeningBrace" st
  let (_, st) ← consumeTok nextFn (mUnit .ClosingBrace) "ClosingBrace" st
  .ok (Slide.new slide_name, st)

/-- The four mutable locals of `Parser::parse_font`. -/
structure FontFields where
  italic : Bool
  name : Option (List Char)
  path : Option (List Char)
  weight : Option Int
deriving DecidableEq, Repr

def initFontFields : FontFields :=
  { italic := false, name := none, path := none, weight := none }

/-- The `while let TokenizerResult::Ok(token, location) = next()` loop of
`Parser::parse_font`: field keywords update the locals (each followed by a
mandatory comma), `ClosingBrace` breaks, any other token is an
`UnexpectedToken` error, and an `Err`/`End` result simply ends the loop. -/
def parse_font_loop (nextFn : σ → TokenizerResult × σ) :
    Nat → FontFields → PeekableTokenStream σ →
    Except ParseFailure (FontFields × PeekableTokenStream σ)
  | 0, _, _ => .error .fuelOut
  | fuel + 1, flds, st =>
      match PeekableTokenStream.next nextFn st with
      | (.Ok token location, st') =>
          if token = .KeywordName then do
            let (font_name, st2) ← consumeTok nextFn mName "Name(font_name)" st'
            let (_, st3) ← consumeTok nextFn (mUnit .Comma) "Comma" st2
            parse_font_loop nextFn fuel { flds with name := some font_name } st3
          else if token = .KeywordPath then do
            let (font_path, st2) ← consumeTok nextFn mString "String(font_path)" st'
            let (_, st3) ← consumeTok nextFn (mUnit .Comma) "Comma" st2
            parse_font_loop nextFn fuel { flds with path := some font_path } st3
          else if token = .KeywordWeight then do
            let (font_weight, st2) ← consumeTok nextFn mInteger "Integer(font_weight)" st'
            let (_, st3) ← consumeTok nextFn (mUnit .Comma) "Comma" st2
            parse_font_loop nextFn fuel { flds with weight := some font_weight } st3
          else if token = .ClosingBrace then
            .ok (flds, st')
          else
            .error (.err (.UnexpectedToken (debug_fmt token)
              "KeywordName, KeywordPath, KeywordWeight or ClosingBrace" location))
      | (.Err _, st') => .ok (flds, st')
      | (.End, st') => .ok (flds, st')

/-- Rust `as u32` truncation of an `i128` value. -/
def intToU32 (v : Int) : Nat := (v % (2 ^ 32 : Int)).toNat

/-- The tail of `Parser::parse_font` after its loop: the three unconditional
`unwrap`s, panicking when a required field was never supplied. -/
def parse_font_finish (flds : FontFields) (st : PeekableTokenStream σ) :
    Except ParseFailure (Font × PeekableTokenStream σ) :=
  match flds.name, flds.path, flds.weight with
  | some n, some p, some w => .ok (Font.new n p (intToU32 w) flds.italic, st)
  | _, _, _ => .error .panicUnwrap

/-- The body of `Parser::parse_font` after `font {` has been consumed. -/
def parse_font_body (nextFn : σ → TokenizerResult × σ) (fuel : Nat)
    (st : PeekableTokenStream σ) : Except ParseFailure (Font × PeekableTokenStream σ) := do
  let (flds, st) ← parse_font_loop nextFn fuel initFontFields st
  parse_font_finish flds st

/-- `Parser::parse_font`. -/
def parse_font (nextFn : σ → TokenizerResult × σ) (fuel : Nat)
    (st : PeekableTokenStream σ) : Except ParseFailure (Font × PeekableTokenStream σ) := do
  let (_, st) ← consumeTok nextFn (mUnit .KeywordFont) "KeywordFont" st
  let (_, st) ← consumeTok nextFn (mUnit .OpeningBrace) "OpeningBrace" st
  parse_font_body nextFn fuel st

/-- `Parser::parse_style`: after `style {`, a single `peek` decides between
exactly one font declaration and an error; `None` from `peek` would hit the
`unreachable!()`. -/
def parse_style (nextFn : σ → TokenizerResult × σ) (fuel : Nat)
    (st : PeekableTokenStream σ) : Except ParseFailure (Style × PeekableTokenStream σ) := do
  let (_, st) ← consumeTok nextFn (mUnit .KeywordStyle) "KeywordStyle" st
  let (_, st) ← consumeTok nextFn (mUnit .OpeningBrace) "OpeningBrace" st
  match PeekableTokenStream.peek nextFn st with
  | (some (.Ok .KeywordFont _), st1) => do
      let (f, st2) ← parse_font nextFn fuel st1
      let (_, st3) ← consumeTok nextFn (mUnit .ClosingBrace) "ClosingBrace" st2
      .ok (Style.newList [f], st3)
  | (some r, _) => .error (handle_invalid_result r "KeywordFont")
  | (none, _) => .error .panicUnreachable

/-- The top-level `loop` of `Parser::parse`, accumulating slides and an
optional style. -/
def parse_loop (nextFn : σ → TokenizerResult × σ) :
    Nat → List Slide → Option Style → PeekableTokenStream σ →
    Except ParseFailure (List Slide × Option Style)
  | 0, _, _, _ => .error .fuelOut
  | fuel + 1, slides, style, st =>
      match PeekableTokenStream.peek nextFn st with
      | (some .End, _) => .ok (slides, style)
      | (none, _) => .ok (slides, style)
      | (some (.Ok .KeywordSlide _), st1) => do
          let (sl, st2) ← parse_slide nextFn st1
          parse_loop nextFn fuel (slides ++ [sl]) style st2
      | (some (.Ok .KeywordStyle _), st1) => do
          let (sty, st2) ← parse_style nextFn fuel st1
          parse_loop nextFn fuel slides (some sty) st2
      | (some r, _) => .error (handle_invalid_result r "KeywordSlide or KeywordMetadata")

/-- `Parser::parse`: metadata first, then the slide/style loop, then the
presentation with the default empty style if none was declared. -/
def parse (nextFn : σ → TokenizerResult × σ) (fuel : Nat) (st : PeekableTokenStream σ) :
    Except ParseFailure Presentation := do
  let (title, st) ← parse_metadata nextFn st
  let (slides, style) ← parse_loop nextFn fuel [] none st
  .ok (Presentation.new title slides (style.getD (Style.newList [])))

/-- `Parser::new` wraps the stream in a fresh `PeekableTokenStream`. -/
def mkPTS (s : σ) : PeekableTokenStream σ := ⟨s, none⟩

/-- Parse a list of results, as the parser tests do via `MockTokenStream`. -/
def parseTokens (fuel : Nat) (rs : List TokenizerResult) : Except ParseFailure Presentation :=
  parse tsListNext fuel (mkPTS rs)

/-- The full pipeline of the repository: a `Parser` driving a
`PeekableTokenStream` over the `Tokenizer` of the given source text. -/
def parseText (fuel : Nat) (s : String) : Except ParseFailure Presentation :=
  parse Tokenizer.next fuel (mkPTS (Tokenizer.new s))

/-- Bool form of the accepted string-literal bodies: every backslash is
immediately followed by a double quote, and every double quote is escaped. -/
def validBodyB : List Char → Bool
  | [] => true
  | c :: rest =>
      if c = '"' then false
      else if c = '\\' then
        match rest with
        | d :: rest2 => if d = '"' then validBodyB rest2 else false
        | [] => false
      else validBodyB rest

/-- A token that lexes as a single name: a leading ASCII letter followed by
name characters. -/
def validNameB : List Char → Bool
  | [] => false
  | c :: cs => is_ascii_alphabetic c && cs.all is_name_character

/-- Names joined by single commas, as in `aa,bb,cc`. -/
def joinNames : List (List Char) → List Char
  | [] => []
  | [n] => n
  | n :: ns => n ++ ',' :: joinNames ns

/-- The expected alternating token sequence `Name, Comma, …, Name`. -/
def expectedToks : List (List Char) → List Token
  | [] => []
  | [n] => [.Name n]
  | n :: ns => .Name n :: .Comma :: expectedToks ns

/-- A tokenizer over a raw character list. -/
def Tokenizer.ofChars (data : List Char) : Tokenizer :=
  { data := data, rest := data, index := 0, is_failed := false, line := 0, column := 0 }

/-! ## Auxiliary notions used by the claim statements -/

/-- Whether `pat` occurs as a contiguous subsequence of `s`. -/
def containsSeq (pat : List Char) : List Char → Bool
  | [] => pat.isEmpty
  | c :: rest => pat.isPrefixOf (c :: rest) || containsSeq pat rest

/-- A token with the placeholder location `(0,0)` used by the repository's
parser tests. -/
def tok0 (t : Token) : TokenizerResult :=
  .Ok t (SourceLocationRange.new_single (SourceLocation.new 0 0))

def loc0 : SourceLocationRange := SourceLocationRange.new_single (SourceLocation.new 0 0)

/-- One font-field declaration of the grammar rule
`font_field := ("name" NAME | "path" STRING | "weight" INTEGER) ","`. -/
inductive FontField where
  | fName (s : List Char)
  | fPath (s : List Char)
  | fWeight (v : Int)
deriving DecidableEq, Repr

/-- The tokens of one font field followed by its mandatory comma. -/
def renderField : FontField → List TokenizerResult
  | .fName s => [tok0 .KeywordName, tok0 (.Name s), tok0 .Comma]
  | .fPath s => [tok0 .KeywordPath, tok0 (.String s), tok0 .Comma]
  | .fWeight v => [tok0 .KeywordWeight, tok0 (.Integer v), tok0 .Comma]

/-- The token stream of a sequence of font fields. -/
def renderFields : List FontField → List TokenizerResult
  | [] => []
  | f :: fs => renderField f ++ renderFields fs

/-- The effect of one font field on the mutable locals of `parse_font`. -/
def applyField (flds : FontFields) : FontField → FontFields
  | .fName s => { flds with name := some s }
  | .fPath s => { flds with path := some s }
  | .fWeight v => { flds with weight := some v }

/-- The locals of `parse_font` after a sequence of field declarations. -/
def collectFields (fs : List FontField) : FontFields :=
  fs.foldl applyField initFontFields

/-- The metadata tokens `metadata { title "T" }` shared by the mock-stream
claims. -/
def metaToks (title : List Char) : List TokenizerResult :=
  [tok0 .KeywordMetadata, tok0 .OpeningBrace, tok0 .KeywordTitle,
   tok0 (.String title), tok0 .ClosingBrace]

end Przntr

namespace Przntr

-- Sanity checks mirroring the repository's own tokenizer tests.

example : (Tokenizer.new "a").next.1 = .Ok (.Name "a".data)
    (SourceLocationRange.new (SourceLocation.new 0 1) (SourceLocation.new 0 2)) := by decide

example : (runUntilEnd 10 (Tokenizer.new "aa,bb,cc")).map resTok =
    [some (.Name "aa".data), some .Comma, some (.Name "bb".data),
     some .Comma, some (.Name "cc".data)] := by decide

example : (runUntilEnd 10 (Tokenizer.new "a,b,c")).map resTok =
    [some (.Name "a".data), some .Comma, some (.Name "b".data),
     some .Comma, some (.Name "c".data)] := by decide

example : (Tokenizer.new "\"bla").next.1 =
    .Err (TokenizerFailure.new (SourceLocation.new 0 5) .UnclosedString) := by decide

example : (Tokenizer.new "\"test\\\"some\\\"words\"").next.1 =
    .Ok (.String "test\"some\"words".data)
      (SourceLocationRange.new (SourceLocation.new 0 1) (SourceLocation.new 0 19)) := by decide

example : (Tokenizer.new "\"\\a").next.1 =
    .Err (TokenizerFailure.new (SourceLocation.new 0 2) (.UnknownEscapeSequence 'a')) := by decide

example : (Tokenizer.new "\"\\").next.1 =
    .Err (TokenizerFailure.new (SourceLocation.new 0 2) .UnfinishedEscapeSequence) := by decide

example : (Tokenizer.new "    \n🆒").next.1 =
    .Err (TokenizerFailure.new (SourceLocation.new 1 1) (.UnexpectedCharacter '🆒')) := by decide

example : (runUntilEnd 10 (Tokenizer.new "-123")).map resTok = [some (.Integer (-123))] := by
  decide

example : (runUntilEnd 12 (Tokenizer.new "somename \t \"aaa\" \t \x7b\x0d\n\x7d\t")).map resTok =
    [some (.Name "somename".data), some (.String "aaa".data),
     some .OpeningBrace, some .ClosingBrace] := by decide

example : (Tokenizer.new "name\"").next.1 =
    .Err (TokenizerFailure.new (SourceLocation.new 0 5)
      (.UnexpectedCharacterInName 4 '"')) := by decide

example :
    ((Tokenizer.new "name\" othername").next.2.next).1 = .End := by decide

-- Sanity checks mirroring the repository's own parser tests
-- (tokens carry the single location (0,0) as in `parser_test!`).

example : parseTokens 10 ([Token.KeywordSlide, Token.String "some slide".data,
      Token.OpeningBrace, Token.ClosingBrace].map tok0) =
    .error (.err (.UnexpectedToken "KeywordSlide" "KeywordMetadata" loc0)) := by decide

example : parseTokens 10 ([Token.KeywordMetadata, Token.OpeningBrace, Token.KeywordTitle,
      Token.String "some title".data, Token.ClosingBrace].map tok0) =
    .ok (Presentation.new "some title".data [] (Style.newList [])) := by decide

example : parseTokens 10 ([Token.KeywordMetadata, Token.OpeningBrace, Token.KeywordTitle,
      Token.String "some title".data, Token.ClosingBrace, Token.KeywordSlide,
      Token.String "first slide".data, Token.OpeningBrace, Token.ClosingBrace].map tok0) =
    .ok (Presentation.new "some title".data [Slide.new "first slide".data]
      (Style.newList [])) := by decide

example : parseTokens 10 ([Token.KeywordMetadata, Token.OpeningBrace, Token.KeywordTitle,
      Token.String "some title".data, Token.ClosingBrace, Token.Name "notslide".data,
      Token.String "some slide".data, Token.OpeningBrace, Token.ClosingBrace].map tok0) =
    .error (.err (.UnexpectedToken "Name(\"notslide\")"
      "KeywordSlide or KeywordMetadata" loc0)) := by decide

example : parseTokens 10 ([Token.KeywordMetadata, Token.OpeningBrace, Token.KeywordTitle,
      Token.String "some title".data, Token.ClosingBrace, Token.KeywordSlide,
      Token.String "some slide".data].map tok0) =
    .error (.err (.UnexpectedEndOfStream "OpeningBrace")) := by decide

example : parseTokens 10 ([Token.KeywordMetadata, Token.OpeningBrace, Token.KeywordTitle,
      Token.String "some title".data, Token.ClosingBrace, Token.KeywordStyle,
      Token.OpeningBrace, Token.KeywordFont, Token.OpeningBrace, Token.KeywordPath,
      Token.String "some_path".data, Token.Comma, Token.KeywordName,
      Token.Name "my-wonderful-font".data, Token.Comma, Token.KeywordWeight,
      Token.Integer 500, Token.Comma, Token.ClosingBrace, Token.ClosingBrace].map tok0) =
    .ok (Presentation.new "some title".data []
      (Style.newList [Font.new "my-wonderful-font".data "some_path".data 500 false])) := by
  decide

example : parseTokens 10 ([Token.KeywordMetadata, Token.OpeningBrace, Token.KeywordTitle,
      Token.String "some title".data, Token.ClosingBrace, Token.KeywordStyle,
      Token.OpeningBrace, Token.KeywordFont, Token.OpeningBrace,
      Token.Name "invalid".data, Token.String "some_path".data,
      Token.ClosingBrace, Token.ClosingBrace].map tok0) =
    .error (.err (.UnexpectedToken "Name(\"invalid\")"
      "KeywordName, KeywordPath, KeywordWeight or ClosingBrace" loc0)) := by decide

example : parseTokens 10 [TokenizerResult.Err (TokenizerFailure.new
      (SourceLocation.new 0 0) .UnclosedString)] =
    .error (.err (.TokenizerFailure (TokenizerFailure.new
      (SourceLocation.new 0 0) .UnclosedString))) := by decide

example : Style.new [Font.new "some-font".data "/some/path/1".data 500 false,
      Font.new "some-font".data "/some/path/2".data 500 false] =
    .error (.DuplicateFont ⟨"some-font".data, 500, false⟩) := by decide

/-! ## Claim theorems -/

/-- Claim C1: parsing the token stream of
`metadata { title "T" } slide "S" {}` through the full pipeline yields
`Ok` with a presentation titled `"T"`, exactly one slide named `"S"`, and
a style containing no fonts. -/
theorem C1_parse_slide_example :
    parseText 20 "metadata \x7b title \"T\" \x7d slide \"S\" \x7b\x7d" =
      .ok (Presentation.new "T".data [Slide.new "S".data] (Style.mk [])) := by decide

/-- Claim C2 evaluated on the code: the tokenizer does NOT latch on every
failure.  On input `* a` the first `next()` returns the
`UnexpectedCharacter` error, yet `is_failed` stays `false` and the second
`next()` returns `Ok(Name("a"))` instead of `End`; likewise on `-a x` an
`InvalidIntegerValue` error is followed by `Ok(Name("x"))`. -/
theorem C2_error_not_latched :
    (Tokenizer.new "* a").next.1 =
      .Err (TokenizerFailure.new (SourceLocation.new 0 1) (.UnexpectedCharacter '*')) ∧
    (Tokenizer.new "* a").next.2.is_failed = false ∧
    (Tokenizer.new "* a").next.2.next.1 =
      .Ok (.Name "a".data)
        (SourceLocationRange.new (SourceLocation.new 0 3) (SourceLocation.new 0 4)) ∧
    (Tokenizer.new "-a x").next.1 =
      .Err (TokenizerFailure.new (SourceLocation.new 0 2) (.InvalidIntegerValue "-a".data)) ∧
    (Tokenizer.new "-a x").next.2.next.1 =
      .Ok (.Name "x".data)
        (SourceLocationRange.new (SourceLocation.new 0 4) (SourceLocation.new 0 5)) := by
  decide

/-- Claim C4, counterexample: with zero font declarations
(`metadata { title "T" } style { }`) `parse()` does not succeed — it fails
with `UnexpectedToken` (actual `ClosingBrace`, expected `KeywordFont`),
so a style block may not contain any number of font declarations. -/
theorem C4_counterexample_zero_fonts :
    parseText 20 "metadata \x7b title \"T\" \x7d style \x7b \x7d" =
      .error (.err (.UnexpectedToken "ClosingBrace" "KeywordFont"
        (SourceLocationRange.new_single (SourceLocation.new 0 32)))) := by decide

/-- Claim C5: whenever the font-field loop of `parse_font` completes with
at least one of the required fields `name`, `path`, `weight` never
supplied, the tail of `parse_font` hits an unconditional `unwrap` and
panics; the panic branch is reachable from `parse()` on the full pipeline,
e.g. on `metadata { title "T" } style { font { } }`. -/
theorem C5_missing_required_field_panics :
    (∀ (σ : Type) (nextFn : σ → TokenizerResult × σ) (fuel : Nat)
      (st st' : PeekableTokenStream σ) (flds : FontFields),
      parse_font_loop nextFn fuel initFontFields st = .ok (flds, st') →
      flds.name = none ∨ flds.path = none ∨ flds.weight = none →
      parse_font_body nextFn fuel st = .error .panicUnwrap) ∧
    parseText 20 "metadata \x7b title \"T\" \x7d style \x7b font \x7b \x7d \x7d" =
      .error .panicUnwrap := by
  constructor
  · intro σ nextFn fuel st st' flds hloop hmiss
    obtain ⟨i, nm, pth, wt⟩ := flds
    have hbody : parse_font_body nextFn fuel st =
        parse_font_finish ⟨i, nm, pth, wt⟩ st' := by
      unfold parse_font_body
      rw [hloop]
      rfl
    rw [hbody]
    rcases hmiss with h | h | h <;> simp only at h <;> subst h <;>
      unfold parse_font_finish <;> first
        | (cases pth <;> cases wt <;> rfl)
        | (cases nm <;> cases wt <;> rfl)
        | (cases nm <;> cases pth <;> rfl)
  · decide

/-- Claim C5 witness: the universal part applied to a concrete stream whose
font body is immediately closed, leaving all required fields unset. -/
theorem C5_witness :
    parse_font_body tsListNext 5 (mkPTS [tok0 .ClosingBrace]) = .error .panicUnwrap :=
  C5_missing_required_field_panics.1 (List TokenizerResult) tsListNext 5
    (mkPTS [tok0 .ClosingBrace]) (mkPTS []) initFontFields (by decide) (by decide)

/-- Claim C6, counterexample: on the token stream of
`metadata { title "T" } notslide "S" {}` the `expected` field of the
`UnexpectedToken` error is the string `KeywordSlide or KeywordMetadata` —
it does not mention `KeywordStyle` as the claim states. -/
theorem C6_counterexample_expected_names_metadata :
    parseText 20 "metadata \x7b title \"T\" \x7d notslide \"S\" \x7b\x7d" =
      .error (.err (.UnexpectedToken "Name(\"notslide\")"
        "KeywordSlide or KeywordMetadata"
        (SourceLocationRange.new (SourceLocation.new 0 24) (SourceLocation.new 0 32)))) ∧
    containsSeq "KeywordStyle".data "KeywordSlide or KeywordMetadata".data = false := by
  constructor
  · decide
  · decide

/-! Lemmas about single tokenizer steps, used by the universal
tokenizer claims. -/

theorem advance_data (t : Tokenizer) (c : Char) (rs : List Char) :
    (t.advance c rs).data = t.data := by
  unfold Tokenizer.advance; split <;> rfl

theorem advance_rest (t : Tokenizer) (c : Char) (rs : List Char) :
    (t.advance c rs).rest = rs := by
  unfold Tokenizer.advance; split <;> rfl

theorem advance_index (t : Tokenizer) (c : Char) (rs : List Char) :
    (t.advance c rs).index = t.index + 1 := by
  unfold Tokenizer.advance; split <;> rfl

theorem advance_is_failed (t : Tokenizer) (c : Char) (rs : List Char) :
    (t.advance c rs).is_failed = t.is_failed := by
  unfold Tokenizer.advance; split <;> rfl

theorem drop_tail_of_drop (d : List Char) (i : Nat) (c : Char) (rs : List Char)
    (h : d.drop i = c :: rs) : d.drop (i + 1) = rs := by
  rw [← List.drop_drop 1 i d, h]
  rfl

theorem validBodyB_cons (c : Char) (rest : List Char) :
    validBodyB (c :: rest) =
      if c = '"' then false
      else if c = '\\' then
        match rest with
        | d :: rest2 => if d = '"' then validBodyB rest2 else false
        | [] => false
      else validBodyB rest := by
  cases rest <;> rfl

theorem string_step_close (t : Tokenizer) (si : Nat) (sl : SourceLocation) (r : List Char) :
    Tokenizer.nextLoop (.ReadingString si sl) t ('"' :: r) =
      (.Ok (.String (replaceEsc (slice (t.advance '"' r).data (si + 1) t.index)))
        (SourceLocationRange.new sl (t.advance '"' r).current_location), t.advance '"' r) := by
  rw [Tokenizer.nextLoop.eq_def]
  simp

theorem string_step_escape (t : Tokenizer) (si : Nat) (sl : SourceLocation) (rs2 : List Char) :
    Tokenizer.nextLoop (.ReadingString si sl) t ('\\' :: '"' :: rs2) =
      Tokenizer.nextLoop (.ReadingString si sl)
        ((t.advance '\\' ('"' :: rs2)).advance '"' rs2) rs2 := by
  rw [Tokenizer.nextLoop.eq_def]
  simp

theorem string_step_char (t : Tokenizer) (si : Nat) (sl : SourceLocation) (c : Char)
    (rs : List Char) (h1 : c ≠ '\\') (h2 : c ≠ '"') :
    Tokenizer.nextLoop (.ReadingString si sl) t (c :: rs) =
      Tokenizer.nextLoop (.ReadingString si sl) (t.advance c rs) rs := by
  rw [Tokenizer.nextLoop.eq_def]
  simp [h1, h2]

theorem string_step_start (t : Tokenizer) (rs : List Char) :
    Tokenizer.nextLoop .NoneSt t ('"' :: rs) =
      Tokenizer.nextLoop (.ReadingString t.index (t.advance '"' rs).current_location)
        (t.advance '"' rs) rs := by
  rw [Tokenizer.nextLoop.eq_def]
  simp [show is_ascii_alphabetic '"' = false from by decide]

theorem string_loop : ∀ (k : Nat) (b : List Char), b.length ≤ k → validBodyB b = true →
    ∀ (t : Tokenizer) (pre : List Char) (si : Nat) (sl : SourceLocation) (r : List Char),
      t.data.drop (si + 1) = pre ++ b ++ '"' :: r →
      t.index = si + 1 + pre.length →
      t.rest = b ++ '"' :: r →
      ∃ rng t', Tokenizer.nextLoop (.ReadingString si sl) t t.rest =
        (.Ok (.String (replaceEsc (pre ++ b))) rng, t') := by
  intro k
  induction k with
  | zero =>
      intro b hb hv t pre si sl r hdata hidx hrest
      have hb0 : b = [] := List.length_eq_zero.mp (Nat.le_zero.mp hb)
      subst hb0
      simp only [List.append_nil, List.nil_append] at hdata hrest ⊢
      rw [hrest]
      have hsl : slice (t.advance '"' r).data (si + 1) t.index = pre := by
        unfold slice
        rw [advance_data, hidx, hdata]
        have harith : si + 1 + pre.length - (si + 1) = pre.length := by omega
        rw [harith]
        exact List.take_left pre ('"' :: r)
      refine ⟨SourceLocationRange.new sl (t.advance '"' r).current_location,
        t.advance '"' r, ?_⟩
      rw [string_step_close, hsl]
  | succ k ih =>
      intro b hb hv t pre si sl r hdata hidx hrest
      cases b with
      | nil =>
          simp only [List.append_nil, List.nil_append] at hdata hrest ⊢
          rw [hrest]
          have hsl : slice (t.advance '"' r).data (si + 1) t.index = pre := by
            unfold slice
            rw [advance_data, hidx, hdata]
            have harith : si + 1 + pre.length - (si + 1) = pre.length := by omega
            rw [harith]
            exact List.take_left pre ('"' :: r)
          refine ⟨SourceLocationRange.new sl (t.advance '"' r).current_location,
            t.advance '"' r, ?_⟩
          rw [string_step_close, hsl]
      | cons c b2 =>
          by_cases hbs : c = '\\'
          · subst hbs
            cases b2 with
            | nil => simp [validBodyB_cons] at hv
            | cons d b3 =>
                by_cases hd : d = '"'
                · subst hd
                  have hv3 : validBodyB b3 = true := by simpa [validBodyB_cons] using hv
                  rw [hrest]
                  have hshape : ('\\' :: '"' :: b3) ++ '"' :: r =
                      '\\' :: '"' :: (b3 ++ '"' :: r) := by simp
                  rw [hshape, string_step_escape]
                  set t2 := (t.advance '\\' ('"' :: (b3 ++ '"' :: r))).advance '"'
                    (b3 ++ '"' :: r) with ht2
                  have ht2rest : t2.rest = b3 ++ '"' :: r := by
                    rw [ht2, advance_rest]
                  have ht2data : t2.data = t.data := by
                    rw [ht2, advance_data, advance_data]
                  have hdata2 : t2.data.drop (si + 1) =
                      (pre ++ ['\\', '"']) ++ b3 ++ '"' :: r := by
                    rw [ht2data, hdata]
                    simp
                  have hidx2 : t2.index = si + 1 + (pre ++ ['\\', '"']).length := by
                    rw [ht2, advance_index, advance_index, hidx]
                    simp only [List.length_append, List.length_cons, List.length_nil]
                    omega
                  obtain ⟨rng, t', hres⟩ := ih b3 (by simp at hb; omega) hv3 t2
                    (pre ++ ['\\', '"']) si sl r hdata2 hidx2 ht2rest
                  rw [ht2rest] at hres
                  have hlist : (pre ++ ['\\', '"']) ++ b3 = pre ++ '\\' :: '"' :: b3 := by
                    simp
                  rw [hlist] at hres
                  exact ⟨rng, t', hres⟩
                · exfalso
                  have hfalse : validBodyB ('\\' :: d :: b3) = false := by
                    simp [validBodyB_cons, hd]
                  rw [hfalse] at hv
                  exact Bool.false_ne_true hv
          · by_cases hq : c = '"'
            · subst hq
              simp [validBodyB_cons] at hv
            · have hv2 : validBodyB b2 = true := by
                simpa [validBodyB_cons, hbs, hq] using hv
              rw [hrest]
              have hshape : (c :: b2) ++ '"' :: r = c :: (b2 ++ '"' :: r) := by simp
              rw [hshape, string_step_char t si sl c _ hbs hq]
              have hrest2 : (t.advance c (b2 ++ '"' :: r)).rest = b2 ++ '"' :: r :=
                advance_rest t c _
              have hdata2 : (t.advance c (b2 ++ '"' :: r)).data.drop (si + 1) =
                  (pre ++ [c]) ++ b2 ++ '"' :: r := by
                rw [advance_data, hdata]
                simp
              have hidx2 : (t.advance c (b2 ++ '"' :: r)).index =
                  si + 1 + (pre ++ [c]).length := by
                rw [advance_index, hidx]
                simp only [List.length_append, List.length_cons, List.length_nil]
                omega
              obtain ⟨rng, t', hres⟩ := ih b2 (by simp at hb; omega) hv2
                (t.advance c (b2 ++ '"' :: r)) (pre ++ [c]) si sl r hdata2 hidx2 hrest2
              rw [hrest2] at hres
              have hlist : (pre ++ [c]) ++ b2 = pre ++ c :: b2 := by simp
              rw [hlist] at hres
              exact ⟨rng, t', hres⟩

theorem string_token (b r : List Char) (t : Tokenizer) (hv : validBodyB b = true)
    (hfail : t.is_failed = false) (hinv : t.data.drop t.index = t.rest)
    (hrest : t.rest = '"' :: (b ++ '"' :: r)) :
    ∃ rng t', Tokenizer.next t = (.Ok (.String (replaceEsc b)) rng, t') := by
  have hnext : Tokenizer.next t = Tokenizer.nextLoop .NoneSt t t.rest := by
    unfold Tokenizer.next
    rw [hfail]
    rfl
  rw [hnext, hrest, string_step_start]
  have h1 : (t.advance '"' (b ++ '"' :: r)).rest = b ++ '"' :: r := advance_rest t _ _
  have h2 : (t.advance '"' (b ++ '"' :: r)).data.drop (t.index + 1) =
      [] ++ b ++ '"' :: r := by
    rw [advance_data]
    rw [drop_tail_of_drop t.data t.index '"' (b ++ '"' :: r) (hinv.trans hrest)]
    simp
  have h3 : (t.advance '"' (b ++ '"' :: r)).index = t.index + 1 + ([] : List Char).length := by
    rw [advance_index]
    simp
  obtain ⟨rng, t', hres⟩ := string_loop b.length b le_rfl hv
    (t.advance '"' (b ++ '"' :: r)) [] t.index
    ((t.advance '"' (b ++ '"' :: r)).current_location) r h2 h3 h1
  rw [h1] at hres
  rw [List.nil_append] at hres
  exact ⟨rng, t', hres⟩

theorem joinNames_pair (n m : List Char) (ns : List (List Char)) :
    joinNames (n :: m :: ns) = n ++ ',' :: joinNames (m :: ns) := rfl

theorem expectedToks_pair (n m : List Char) (ns : List (List Char)) :
    expectedToks (n :: m :: ns) = .Name n :: .Comma :: expectedToks (m :: ns) := rfl

theorem check_next_head_ne (t : Tokenizer) (l : List Char) (d : Char)
    (hrest : t.rest = d :: l) (hd : d ≠ ',') : t.check_next ',' = false := by
  unfold Tokenizer.check_next
  rw [hrest]
  simp [hd]

theorem check_next_nil (t : Tokenizer) (hrest : t.rest = []) :
    t.check_next ',' = false := by
  unfold Tokenizer.check_next
  rw [hrest]

theorem name_char_ne_comma (d : Char) (hd : is_name_character d = true) : d ≠ ',' := by
  intro he
  rw [he] at hd
  exact absurd hd (by decide)

theorem check_next_comma_namechars (t : Tokenizer) (l : List Char)
    (hrest : t.rest = l) (hl : l.all is_name_character = true) :
    t.check_next ',' = false := by
  cases l with
  | nil => exact check_next_nil t hrest
  | cons d l2 =>
      simp only [List.all_cons, Bool.and_eq_true] at hl
      exact check_next_head_ne t l2 d hrest (name_char_ne_comma d hl.1)

theorem name_step_continue (t : Tokenizer) (si : Nat) (sl : SourceLocation) (c : Char)
    (rs : List Char) (hc : is_name_character c = true)
    (hnc : (t.advance c rs).check_next ',' = false) :
    Tokenizer.nextLoop (.ReadingName si sl) t (c :: rs) =
      Tokenizer.nextLoop (.ReadingName si sl) (t.advance c rs) rs := by
  rw [Tokenizer.nextLoop.eq_def]
  simp [hc, hnc]

theorem name_step_comma_stop (t : Tokenizer) (si : Nat) (sl : SourceLocation) (c : Char)
    (rs : List Char) (hnc : (t.advance c rs).check_next ',' = true) :
    Tokenizer.nextLoop (.ReadingName si sl) t (c :: rs) =
      ((t.advance c rs).handle_name_or_keyword
        (slice (t.advance c rs).data si (1 + t.index)) sl, t.advance c rs) := by
  rw [Tokenizer.nextLoop.eq_def]
  simp [hnc]

theorem name_step_start (t : Tokenizer) (c : Char) (rs : List Char)
    (hc : is_ascii_alphabetic c = true) :
    Tokenizer.nextLoop .NoneSt t (c :: rs) =
      (if (t.advance c rs).check_next ',' = true then
        ((t.advance c rs).handle_name_or_keyword
          (slice (t.advance c rs).data t.index (t.index + 1))
          (t.advance c rs).current_location, t.advance c rs)
      else
        Tokenizer.nextLoop (.ReadingName t.index (t.advance c rs).current_location)
          (t.advance c rs) rs) := by
  rw [Tokenizer.nextLoop.eq_def]
  simp [hc]

theorem name_step_finish (t : Tokenizer) (si : Nat) (sl : SourceLocation) :
    Tokenizer.nextLoop (.ReadingName si sl) t [] =
      (({ t with column := (t.column + 1) % U32 } : Tokenizer).handle_name_or_keyword
        (t.data.drop si) sl, { t with column := (t.column + 1) % U32 }) := by
  rw [Tokenizer.nextLoop.eq_def]
  rfl

theorem comma_step (t : Tokenizer) (rs : List Char) :
    Tokenizer.nextLoop .NoneSt t (',' :: rs) =
      (.Ok .Comma (SourceLocationRange.new_single (t.advance ',' rs).current_location),
        t.advance ',' rs) := by
  rw [Tokenizer.nextLoop.eq_def]
  simp [show is_ascii_alphabetic ',' = false from by decide,
        show is_ascii_digit ',' = false from by decide,
        show is_ascii_whitespace ',' = false from by decide]

theorem next_not_failed (t : Tokenizer) (hfail : t.is_failed = false) :
    Tokenizer.next t = Tokenizer.nextLoop .NoneSt t t.rest := by
  unfold Tokenizer.next
  rw [hfail]
  rfl

theorem end_token (t : Tokenizer) (hfail : t.is_failed = false) (hrest : t.rest = []) :
    Tokenizer.next t = (.End, { t with column := (t.column + 1) % U32 }) := by
  rw [next_not_failed t hfail, hrest, Tokenizer.nextLoop.eq_def]
  simp [Tokenizer.finish, hrest]

theorem comma_token (t : Tokenizer) (r : List Char) (hfail : t.is_failed = false)
    (hinv : t.data.drop t.index = t.rest) (hrest : t.rest = ',' :: r) :
    ∃ rng t', Tokenizer.next t = (.Ok .Comma rng, t') ∧ t'.rest = r ∧
      t'.data = t.data ∧ t'.data.drop t'.index = t'.rest ∧ t'.is_failed = false := by
  rw [next_not_failed t hfail, hrest, comma_step]
  refine ⟨_, _, rfl, advance_rest t ',' r, advance_data t ',' r, ?_, ?_⟩
  · rw [advance_data, advance_index, advance_rest,
      drop_tail_of_drop t.data t.index ',' r (hinv.trans hrest)]
  · rw [advance_is_failed]
    exact hfail

theorem name_loop_comma : ∀ (k : Nat) (mid : List Char), mid.length ≤ k →
    mid.all is_name_character = true → mid ≠ [] →
    ∀ (t : Tokenizer) (pre : List Char) (si : Nat) (sl : SourceLocation) (r : List Char),
      pre ≠ [] →
      t.data.drop si = pre ++ mid ++ ',' :: r →
      t.index = si + pre.length →
      t.rest = mid ++ ',' :: r →
      t.data.drop t.index = t.rest →
      ∃ rng t', Tokenizer.nextLoop (.ReadingName si sl) t t.rest =
          (.Ok (keywordOf (pre ++ mid)) rng, t') ∧
        t'.rest = ',' :: r ∧ t'.data = t.data ∧
        t'.data.drop t'.index = t'.rest ∧ t'.is_failed = t.is_failed := by
  intro k
  induction k with
  | zero =>
      intro mid hk _ hne
      exact absurd (List.length_eq_zero.mp (Nat.le_zero.mp hk)) hne
  | succ k ih =>
      intro mid hk hall hne t pre si sl r hpre hdata hidx hrest hinv
      cases mid with
      | nil => exact absurd rfl hne
      | cons c mid2 =>
          simp only [List.all_cons, Bool.and_eq_true] at hall
          cases mid2 with
          | nil =>
              rw [hrest]
              simp only [List.cons_append, List.nil_append]
              have hnc : (t.advance c (',' :: r)).check_next ',' = true := by
                unfold Tokenizer.check_next
                rw [advance_rest]
                simp
              rw [name_step_comma_stop t si sl c (',' :: r) hnc]
              have hsl : slice (t.advance c (',' :: r)).data si (1 + t.index) =
                  pre ++ [c] := by
                unfold slice
                rw [advance_data, hidx, hdata]
                have harith : 1 + (si + pre.length) - si = (pre ++ [c]).length := by
                  simp
                  omega
                rw [harith]
                have hassoc : pre ++ [c] ++ ',' :: r = (pre ++ [c]) ++ ',' :: r := by
                  simp
                rw [hassoc]
                exact List.take_left (pre ++ [c]) (',' :: r)
              rw [hsl]
              refine ⟨_, _, rfl, advance_rest t c _, advance_data t c _, ?_, ?_⟩
              · rw [advance_data, advance_index, advance_rest,
                  drop_tail_of_drop t.data t.index c (',' :: r) (by
                    rw [hinv, hrest]
                    simp)]
              · rw [advance_is_failed]
          | cons d mid3 =>
              rw [hrest]
              simp only [List.all_cons, Bool.and_eq_true] at hall
              have hnc : (t.advance c (d :: mid3 ++ ',' :: r)).check_next ',' = false := by
                refine check_next_head_ne _ (mid3 ++ ',' :: r) d (advance_rest t c _) ?_
                exact name_char_ne_comma d hall.2.1
              have hstep := name_step_continue t si sl c (d :: mid3 ++ ',' :: r) hall.1 hnc
              simp only [List.cons_append] at hstep ⊢
              rw [hstep]
              have hrest2 : (t.advance c (d :: (mid3 ++ ',' :: r))).rest =
                  (d :: mid3) ++ ',' :: r := by
                rw [advance_rest]
                rfl
              have hinv2 : (t.advance c (d :: (mid3 ++ ',' :: r))).data.drop
                  (t.advance c (d :: (mid3 ++ ',' :: r))).index =
                  (t.advance c (d :: (mid3 ++ ',' :: r))).rest := by
                rw [advance_data, advance_index, advance_rest,
                  drop_tail_of_drop t.data t.index c (d :: (mid3 ++ ',' :: r)) (by
                    rw [hinv, hrest]
                    rfl)]
              have hdata2 : (t.advance c (d :: (mid3 ++ ',' :: r))).data.drop si =
                  (pre ++ [c]) ++ (d :: mid3) ++ ',' :: r := by
                rw [advance_data, hdata]
                simp
              have hidx2 : (t.advance c (d :: (mid3 ++ ',' :: r))).index =
                  si + (pre ++ [c]).length := by
                rw [advance_index, hidx]
                simp only [List.length_append, List.length_cons, List.length_nil]
                omega
              have hall2 : (d :: mid3).all is_name_character = true := by
                simp only [List.all_cons, Bool.and_eq_true]
                exact hall.2
              obtain ⟨rng, t', hres, h1, h2, h3, h4⟩ := ih (d :: mid3)
                (by simp at hk ⊢; omega) hall2 (by simp)
                (t.advance c (d :: (mid3 ++ ',' :: r))) (pre ++ [c]) si sl r
                (by simp) hdata2 hidx2 hrest2 hinv2
              rw [hrest2] at hres
              have hkwlist : (pre ++ [c]) ++ d :: mid3 = pre ++ c :: d :: mid3 := by
                simp
              rw [hkwlist] at hres
              refine ⟨rng, t', hres, h1, ?_, h3, ?_⟩
              · rw [h2, advance_data]
              · rw [h4, advance_is_failed]

theorem name_loop_end : ∀ (k : Nat) (mid : List Char), mid.length ≤ k →
    mid.all is_name_character = true →
    ∀ (t : Tokenizer) (pre : List Char) (si : Nat) (sl : SourceLocation),
      pre ≠ [] →
      t.data.drop si = pre ++ mid →
      t.index = si + pre.length →
      t.rest = mid →
      ∃ rng t', Tokenizer.nextLoop (.ReadingName si sl) t t.rest =
          (.Ok (keywordOf (pre ++ mid)) rng, t') ∧
        t'.rest = [] ∧ t'.is_failed = t.is_failed := by
  intro k
  induction k with
  | zero =>
      intro mid hk _ t pre si sl _ hdata _ hrest
      have hmid : mid = [] := List.length_eq_zero.mp (Nat.le_zero.mp hk)
      subst hmid
      rw [hrest, name_step_finish]
      simp only [List.append_nil] at hdata ⊢
      rw [hdata]
      exact ⟨_, _, rfl, hrest, rfl⟩
  | succ k ih =>
      intro mid hk hall t pre si sl hpre hdata hidx hrest
      cases mid with
      | nil =>
          rw [hrest, name_step_finish]
          simp only [List.append_nil] at hdata ⊢
          rw [hdata]
          exact ⟨_, _, rfl, hrest, rfl⟩
      | cons c mid2 =>
          simp only [List.all_cons, Bool.and_eq_true] at hall
          rw [hrest]
          have hnc : (t.advance c mid2).check_next ',' = false :=
            check_next_comma_namechars _ mid2 (advance_rest t c mid2) hall.2
          rw [name_step_continue t si sl c mid2 hall.1 hnc]
          have hdata2 : (t.advance c mid2).data.drop si = (pre ++ [c]) ++ mid2 := by
            rw [advance_data, hdata]
            simp
          have hidx2 : (t.advance c mid2).index = si + (pre ++ [c]).length := by
            rw [advance_index, hidx]
            simp only [List.length_append, List.length_cons, List.length_nil]
            omega
          obtain ⟨rng, t', hres, h1, h2⟩ := ih mid2 (by simp at hk; omega) hall.2
            (t.advance c mid2) (pre ++ [c]) si sl (by simp) hdata2 hidx2
            (advance_rest t c mid2)
          rw [advance_rest] at hres
          have hkwlist : (pre ++ [c]) ++ mid2 = pre ++ c :: mid2 := by simp
          rw [hkwlist] at hres
          exact ⟨rng, t', hres, h1, by rw [h2, advance_is_failed]⟩

theorem name_token_comma (n r : List Char) (t : Tokenizer) (hn : validNameB n = true)
    (hfail : t.is_failed = false) (hinv : t.data.drop t.index = t.rest)
    (hrest : t.rest = n ++ ',' :: r) :
    ∃ rng t', Tokenizer.next t = (.Ok (keywordOf n) rng, t') ∧ t'.rest = ',' :: r ∧
      t'.data = t.data ∧ t'.data.drop t'.index = t'.rest ∧ t'.is_failed = false := by
  cases n with
  | nil => simp [validNameB] at hn
  | cons c cs =>
      simp only [validNameB, Bool.and_eq_true] at hn
      rw [next_not_failed t hfail, hrest, List.cons_append, name_step_start t c _ hn.1]
      cases cs with
      | nil =>
          have hnc : (t.advance c ([] ++ ',' :: r)).check_next ',' = true := by
            unfold Tokenizer.check_next
            rw [advance_rest]
            simp
          rw [if_pos hnc]
          have hsl : slice (t.advance c ([] ++ ',' :: r)).data t.index (t.index + 1) =
              [c] := by
            unfold slice
            rw [advance_data]
            have harith : t.index + 1 - t.index = 1 := by omega
            rw [harith, hinv, hrest]
            rfl
          rw [hsl]
          refine ⟨_, _, rfl, by rw [advance_rest]; rfl, advance_data t c _, ?_, ?_⟩
          · rw [advance_data, advance_index, advance_rest]
            rw [drop_tail_of_drop t.data t.index c ([] ++ ',' :: r)
              (by rw [hinv, hrest]; rfl)]
          · rw [advance_is_failed]
            exact hfail
      | cons d cs2 =>
          simp only [List.all_cons, Bool.and_eq_true] at hn
          have hnc : (t.advance c (d :: cs2 ++ ',' :: r)).check_next ',' = false := by
            refine check_next_head_ne _ (cs2 ++ ',' :: r) d ?_ ?_
            · rw [advance_rest]
              rfl
            · exact name_char_ne_comma d hn.2.1
          rw [if_neg (by rw [hnc]; exact Bool.false_ne_true)]
          have hdata2 : (t.advance c (d :: cs2 ++ ',' :: r)).data.drop t.index =
              [c] ++ (d :: cs2) ++ ',' :: r := by
            rw [advance_data, hinv, hrest]
            rfl
          have hidx2 : (t.advance c (d :: cs2 ++ ',' :: r)).index =
              t.index + ([c] : List Char).length := by
            rw [advance_index]
            rfl
          have hrest2 : (t.advance c (d :: cs2 ++ ',' :: r)).rest =
              (d :: cs2) ++ ',' :: r := by
            rw [advance_rest]
          have hinv2 : (t.advance c (d :: cs2 ++ ',' :: r)).data.drop
              (t.advance c (d :: cs2 ++ ',' :: r)).index =
              (t.advance c (d :: cs2 ++ ',' :: r)).rest := by
            rw [advance_data, advance_index, advance_rest,
              drop_tail_of_drop t.data t.index c (d :: cs2 ++ ',' :: r)
                (by rw [hinv, hrest]; rfl)]
          have hall2 : (d :: cs2).all is_name_character = true := by
            simp only [List.all_cons, Bool.and_eq_true]
            exact hn.2
          obtain ⟨rng, t', hres, h1, h2, h3, h4⟩ := name_loop_comma (d :: cs2).length
            (d :: cs2) le_rfl hall2 (by simp) (t.advance c (d :: cs2 ++ ',' :: r)) [c]
            t.index ((t.advance c (d :: cs2 ++ ',' :: r)).current_location) r (by simp)
            hdata2 hidx2 hrest2 hinv2
          rw [hrest2] at hres
          refine ⟨rng, t', hres, h1, by rw [h2, advance_data], h3, ?_⟩
          rw [h4, advance_is_failed]
          exact hfail

theorem name_token_end (n : List Char) (t : Tokenizer) (hn : validNameB n = true)
    (hfail : t.is_failed = false) (hinv : t.data.drop t.index = t.rest)
    (hrest : t.rest = n) :
    ∃ rng t', Tokenizer.next t = (.Ok (keywordOf n) rng, t') ∧ t'.rest = [] ∧
      t'.is_failed = false := by
  cases n with
  | nil => simp [validNameB] at hn
  | cons c cs =>
      simp only [validNameB, Bool.and_eq_true] at hn
      rw [next_not_failed t hfail, hrest, name_step_start t c cs hn.1]
      have hnc : (t.advance c cs).check_next ',' = false :=
        check_next_comma_namechars _ cs (advance_rest t c cs) hn.2
      rw [if_neg (by rw [hnc]; exact Bool.false_ne_true)]
      have hdata2 : (t.advance c cs).data.drop t.index = [c] ++ cs := by
        rw [advance_data, hinv, hrest]
        rfl
      have hidx2 : (t.advance c cs).index = t.index + ([c] : List Char).length := by
        rw [advance_index]
        rfl
      obtain ⟨rng, t', hres, h1, h2⟩ := name_loop_end cs.length cs le_rfl hn.2
        (t.advance c cs) [c] t.index ((t.advance c cs).current_location) (by simp)
        hdata2 hidx2 (advance_rest t c cs)
      rw [advance_rest] at hres
      refine ⟨rng, t', hres, h1, ?_⟩
      rw [h2, advance_is_failed]
      exact hfail

theorem runUntilEnd_cons (fuel : Nat) (t : Tokenizer) (tok : Token)
    (rng : SourceLocationRange) (t' : Tokenizer)
    (h : Tokenizer.next t = (.Ok tok rng, t')) :
    runUntilEnd (fuel + 1) t = .Ok tok rng :: runUntilEnd fuel t' := by
  simp only [runUntilEnd, h]

theorem runUntilEnd_end (fuel : Nat) (t t'' : Tokenizer)
    (h : Tokenizer.next t = (.End, t'')) : runUntilEnd (fuel + 1) t = [] := by
  simp only [runUntilEnd, h]

theorem names_tokenize : ∀ (names : List (List Char)), names ≠ [] →
    (∀ n ∈ names, validNameB n = true ∧ keywordOf n = Token.Name n) →
    ∀ (fuel : Nat) (t : Tokenizer), 2 * names.length ≤ fuel →
      t.is_failed = false → t.data.drop t.index = t.rest → t.rest = joinNames names →
      (runUntilEnd fuel t).map resTok = (expectedToks names).map some := by
  intro names
  induction names with
  | nil => intro h; exact absurd rfl h
  | cons n ns ih =>
      intro _ hval fuel t hfuel hfail hinv hrest
      cases ns with
      | nil =>
          obtain ⟨hn, hkw⟩ := hval n (by simp)
          obtain ⟨rng, t', hname, h1, h2⟩ := name_token_end n t hn hfail hinv
            (by rw [hrest]; rfl)
          match fuel, hfuel with
          | fuel + 2, _ =>
              rw [runUntilEnd_cons (fuel + 1) t _ rng t' hname,
                runUntilEnd_end fuel t' _ (end_token t' h2 h1)]
              simp [resTok, hkw, expectedToks]
      | cons m ns2 =>
          obtain ⟨hn, hkw⟩ := hval n (by simp)
          obtain ⟨rng, t1, hname, ha1, ha2, ha3, ha4⟩ := name_token_comma n
            (joinNames (m :: ns2)) t hn hfail hinv (by rw [hrest, joinNames_pair])
          obtain ⟨rng2, t2, hcomma, hb1, hb2, hb3, hb4⟩ := comma_token t1
            (joinNames (m :: ns2)) ha4 ha3 ha1
          match fuel, hfuel with
          | fuel + 2, hfuel =>
              rw [runUntilEnd_cons (fuel + 1) t _ rng t1 hname,
                runUntilEnd_cons fuel t1 _ rng2 t2 hcomma]
              simp only [List.map_cons]
              rw [ih (by simp) (fun x hx => hval x (by simp [hx])) fuel t2
                (by simp at hfuel ⊢; omega) hb4 hb3 hb1]
              rw [expectedToks_pair]
              simp [resTok, hkw]

/-! Lemmas showing the `unreachable!()` branch of `parse_style` is dead. -/

theorem peek_fst {σ : Type} (nextFn : σ → TokenizerResult × σ) (st : PeekableTokenStream σ) :
    (PeekableTokenStream.peek nextFn st).1 = some (PeekableTokenStream.next nextFn st).1 :=
  rfl

theorem noUnreach_bind {α β : Type} {x : Except ParseFailure α}
    {f : α → Except ParseFailure β} (hx : NoUnreach x) (hf : ∀ a, NoUnreach (f a)) :
    NoUnreach (x >>= f) := by
  cases x with
  | error e =>
      simp only [NoUnreach, Bind.bind, Except.bind, ne_eq, Except.error.injEq]
      intro h
      exact hx (by rw [h])
  | ok a => simpa only [NoUnreach, Bind.bind, Except.bind] using hf a

theorem noUnreach_consumeTok {σ α : Type} (nextFn : σ → TokenizerResult × σ)
    (m : Token → Option α) (expected : String) (st : PeekableTokenStream σ) :
    NoUnreach (consumeTok nextFn m expected st) := by
  unfold consumeTok NoUnreach
  split <;> try simp
  split <;> simp

theorem noUnreach_hir (r : TokenizerResult) (expected : String) :
    handle_invalid_result r expected ≠ ParseFailure.panicUnreachable := by
  cases r <;> simp [handle_invalid_result]

theorem noUnreach_parse_metadata {σ : Type} (nextFn : σ → TokenizerResult × σ)
    (st : PeekableTokenStream σ) : NoUnreach (parse_metadata nextFn st) := by
  unfold parse_metadata
  refine noUnreach_bind (noUnreach_consumeTok _ _ _ _) ?_
  rintro ⟨_, st1⟩
  refine noUnreach_bind (noUnreach_consumeTok _ _ _ _) ?_
  rintro ⟨_, st2⟩
  refine noUnreach_bind (noUnreach_consumeTok _ _ _ _) ?_
  rintro ⟨_, st3⟩
  refine noUnreach_bind (noUnreach_consumeTok _ _ _ _) ?_
  rintro ⟨title, st4⟩
  refine noUnreach_bind (noUnreach_consumeTok _ _ _ _) ?_
  rintro ⟨_, st5⟩
  simp [NoUnreach]

theorem noUnreach_parse_slide {σ : Type} (nextFn : σ → TokenizerResult × σ)
    (st : PeekableTokenStream σ) : NoUnreach (parse_slide nextFn st) := by
  unfold parse_slide
  refine noUnreach_bind (noUnreach_consumeTok _ _ _ _) ?_
  rintro ⟨_, st1⟩
  refine noUnreach_bind (noUnreach_consumeTok _ _ _ _) ?_
  rintro ⟨nm, st2⟩
  refine noUnreach_bind (noUnreach_consumeTok _ _ _ _) ?_
  rintro ⟨_, st3⟩
  refine noUnreach_bind (noUnreach_consumeTok _ _ _ _) ?_
  rintro ⟨_, st4⟩
  simp [NoUnreach]

theorem noUnreach_parse_font_loop {σ : Type} (nextFn : σ → TokenizerResult × σ)
    (fuel : Nat) : ∀ (flds : FontFields) (st : PeekableTokenStream σ),
    NoUnreach (parse_font_loop nextFn fuel flds st) := by
  induction fuel with
  | zero => intro flds st; simp [parse_font_loop, NoUnreach]
  | succ n ih =>
      intro flds st
      unfold parse_font_loop
      split
      · split
        · refine noUnreach_bind (noUnreach_consumeTok _ _ _ _) ?_
          rintro ⟨v, st2⟩
          refine noUnreach_bind (noUnreach_consumeTok _ _ _ _) ?_
          rintro ⟨_, st3⟩
          exact ih _ _
        · split
          · refine noUnreach_bind (noUnreach_consumeTok _ _ _ _) ?_
            rintro ⟨v, st2⟩
            refine noUnreach_bind (noUnreach_consumeTok _ _ _ _) ?_
            rintro ⟨_, st3⟩
            exact ih _ _
          · split
            · refine noUnreach_bind (noUnreach_consumeTok _ _ _ _) ?_
              rintro ⟨v, st2⟩
              refine noUnreach_bind (noUnreach_consumeTok _ _ _ _) ?_
              rintro ⟨_, st3⟩
              exact ih _ _
            · split
              · simp [NoUnreach]
              · simp [NoUnreach]
      · simp [NoUnreach]
      · simp [NoUnreach]

theorem noUnreach_parse_font_finish {σ : Type} (flds : FontFields)
    (st : PeekableTokenStream σ) : NoUnreach (parse_font_finish flds st) := by
  unfold parse_font_finish NoUnreach
  split <;> simp

theorem noUnreach_parse_font {σ : Type} (nextFn : σ → TokenizerResult × σ)
    (fuel : Nat) (st : PeekableTokenStream σ) : NoUnreach (parse_font nextFn fuel st) := by
  unfold parse_font parse_font_body
  refine noUnreach_bind (noUnreach_consumeTok _ _ _ _) ?_
  rintro ⟨_, st1⟩
  refine noUnreach_bind (noUnreach_consumeTok _ _ _ _) ?_
  rintro ⟨_, st2⟩
  refine noUnreach_bind (noUnreach_parse_font_loop _ _ _ _) ?_
  rintro ⟨flds, st3⟩
  exact noUnreach_parse_font_finish flds st3

theorem noUnreach_parse_style {σ : Type} (nextFn : σ → TokenizerResult × σ)
    (fuel : Nat) (st : PeekableTokenStream σ) : NoUnreach (parse_style nextFn fuel st) := by
  unfold parse_style
  refine noUnreach_bind (noUnreach_consumeTok _ _ _ _) ?_
  rintro ⟨_, st1⟩
  refine noUnreach_bind (noUnreach_consumeTok _ _ _ _) ?_
  rintro ⟨_, st2⟩
  dsimp only
  have hfst := peek_fst nextFn st2
  rcases hq : PeekableTokenStream.peek nextFn st2 with ⟨o, st3⟩
  rw [hq] at hfst
  have ho : o = some (PeekableTokenStream.next nextFn st2).1 := by simpa using hfst
  subst ho
  cases (PeekableTokenStream.next nextFn st2).1 with
  | Ok tok loc =>
      cases tok <;> try exact fun h => noUnreach_hir _ "KeywordFont" (Except.error.inj h)
      refine noUnreach_bind (noUnreach_parse_font _ _ _) ?_
      rintro ⟨f, st4⟩
      refine noUnreach_bind (noUnreach_consumeTok _ _ _ _) ?_
      rintro ⟨_, st5⟩
      simp [NoUnreach]
  | Err e => exact fun h => noUnreach_hir _ "KeywordFont" (Except.error.inj h)
  | End => exact fun h => noUnreach_hir _ "KeywordFont" (Except.error.inj h)

theorem noUnreach_parse_loop {σ : Type} (nextFn : σ → TokenizerResult × σ)
    (fuel : Nat) : ∀ (slides : List Slide) (style : Option Style)
    (st : PeekableTokenStream σ), NoUnreach (parse_loop nextFn fuel slides style st) := by
  induction fuel with
  | zero => intro slides style st; simp [parse_loop, NoUnreach]
  | succ n ih =>
      intro slides style st
      unfold parse_loop
      dsimp only
      have hfst := peek_fst nextFn st
      rcases hq : PeekableTokenStream.peek nextFn st with ⟨o, st3⟩
      rw [hq] at hfst
      have ho : o = some (PeekableTokenStream.next nextFn st).1 := by simpa using hfst
      subst ho
      cases (PeekableTokenStream.next nextFn st).1 with
      | Ok tok loc =>
          cases tok <;>
            try exact fun h =>
              noUnreach_hir _ "KeywordSlide or KeywordMetadata" (Except.error.inj h)
          · refine noUnreach_bind (noUnreach_parse_slide _ _) ?_
            rintro ⟨sl, st2⟩
            exact ih _ _ _
          · refine noUnreach_bind (noUnreach_parse_style _ _ _) ?_
            rintro ⟨sty, st2⟩
            exact ih _ _ _
      | Err e =>
          exact fun h =>
            noUnreach_hir _ "KeywordSlide or KeywordMetadata" (Except.error.inj h)
      | End => simp [NoUnreach]

theorem noUnreach_parse {σ : Type} (nextFn : σ → TokenizerResult × σ)
    (fuel : Nat) (st : PeekableTokenStream σ) : NoUnreach (parse nextFn fuel st) := by
  unfold parse
  refine noUnreach_bind (noUnreach_parse_metadata _ _) ?_
  rintro ⟨title, st1⟩
  refine noUnreach_bind (noUnreach_parse_loop _ _ _ _ _) ?_
  rintro ⟨slides, style⟩
  simp [NoUnreach]

/-! Lemmas about the font-field loop of `parse_font` over rendered field
sequences. -/

theorem parse_font_loop_renders (fs : List FontField) :
    ∀ (fuel : Nat) (flds : FontFields) (rest : List TokenizerResult),
    fs.length < fuel →
    parse_font_loop tsListNext fuel flds
        (mkPTS (renderFields fs ++ tok0 .ClosingBrace :: rest)) =
      .ok (fs.foldl applyField flds, mkPTS rest) := by
  induction fs with
  | nil =>
      intro fuel flds rest hf
      cases fuel with
      | zero => omega
      | succ n => rfl
  | cons f fs ih =>
      intro fuel flds rest hf
      cases fuel with
      | zero => simp at hf
      | succ n =>
          have hn : fs.length < n := by simp at hf; omega
          cases f with
          | fName s =>
              have hstep : parse_font_loop tsListNext (n + 1) flds
                  (mkPTS (renderFields (.fName s :: fs) ++ tok0 .ClosingBrace :: rest)) =
                  parse_font_loop tsListNext n { flds with name := some s }
                    (mkPTS (renderFields fs ++ tok0 .ClosingBrace :: rest)) := rfl
              rw [hstep, ih n _ rest hn]
              rfl
          | fPath s =>
              have hstep : parse_font_loop tsListNext (n + 1) flds
                  (mkPTS (renderFields (.fPath s :: fs) ++ tok0 .ClosingBrace :: rest)) =
                  parse_font_loop tsListNext n { flds with path := some s }
                    (mkPTS (renderFields fs ++ tok0 .ClosingBrace :: rest)) := rfl
              rw [hstep, ih n _ rest hn]
              rfl
          | fWeight v =>
              have hstep : parse_font_loop tsListNext (n + 1) flds
                  (mkPTS (renderFields (.fWeight v :: fs) ++ tok0 .ClosingBrace :: rest)) =
                  parse_font_loop tsListNext n { flds with weight := some v }
                    (mkPTS (renderFields fs ++ tok0 .ClosingBrace :: rest)) := rfl
              rw [hstep, ih n _ rest hn]
              rfl

theorem parse_font_renders (fs : List FontField) (fuel : Nat) (rest : List TokenizerResult)
    (hf : fs.length < fuel) :
    parse_font tsListNext fuel (mkPTS (tok0 .KeywordFont :: tok0 .OpeningBrace ::
        (renderFields fs ++ tok0 .ClosingBrace :: rest))) =
      parse_font_finish (collectFields fs) (mkPTS rest) := by
  show parse_font_body tsListNext fuel (mkPTS (renderFields fs ++ tok0 .ClosingBrace :: rest)) = _
  unfold parse_font_body
  rw [parse_font_loop_renders fs fuel initFontFields rest hf]
  rfl

theorem collectFields_italic (fs : List FontField) : (collectFields fs).italic = false := by
  have main : ∀ (l : List FontField) (flds : FontFields), flds.italic = false →
      (l.foldl applyField flds).italic = false := by
    intro l
    induction l with
    | nil => intro flds h; simpa using h
    | cons f fs ih =>
        intro flds h
        rw [List.foldl_cons]
        exact ih _ (by cases f <;> simpa [applyField] using h)
  exact main fs initFontFields rfl

/-! Lemmas about the association-list model of the `Style::new` map. -/

theorem mapInsert_fst (m : List (FontDescriptor × Font)) (k : FontDescriptor) (v : Font) :
    (mapInsert m k v).1 = mapLookup m k := by
  induction m with
  | nil => rfl
  | cons kv rest ih =>
      obtain ⟨k', v'⟩ := kv
      by_cases hk : k' = k <;> simp [mapInsert, mapLookup, hk, ih]

theorem mapInsert_snd_of_none (m : List (FontDescriptor × Font)) (k : FontDescriptor)
    (v : Font) (h : mapLookup m k = none) : (mapInsert m k v).2 = m ++ [(k, v)] := by
  induction m with
  | nil => rfl
  | cons kv rest ih =>
      obtain ⟨k', v'⟩ := kv
      by_cases hk : k' = k
      · simp [mapLookup, hk] at h
      · simp only [mapLookup, if_neg hk] at h
        simp [mapInsert, hk, ih h]

theorem mapLookup_append_some (m l : List (FontDescriptor × Font)) (k : FontDescriptor)
    (v : Font) (h : mapLookup m k = some v) : mapLookup (m ++ l) k = some v := by
  induction m with
  | nil => simp [mapLookup] at h
  | cons kv rest ih =>
      obtain ⟨k', v'⟩ := kv
      by_cases hk : k' = k
      · simp only [mapLookup, if_pos hk] at h
        simp [mapLookup, hk, h]
      · simp only [mapLookup, if_neg hk] at h
        simp [mapLookup, hk, ih h]

theorem mapLookup_append_none (m l : List (FontDescriptor × Font)) (k : FontDescriptor)
    (h : mapLookup m k = none) : mapLookup (m ++ l) k = mapLookup l k := by
  induction m with
  | nil => rfl
  | cons kv rest ih =>
      obtain ⟨k', v'⟩ := kv
      by_cases hk : k' = k
      · simp [mapLookup, hk] at h
      · simp only [mapLookup, if_neg hk] at h
        simp [mapLookup, hk, ih h]

theorem mapLookup_wf (m : List (FontDescriptor × Font)) (k : FontDescriptor) (v : Font)
    (hwf : MapWF m) (h : mapLookup m k = some v) : v.descriptor = k := by
  induction m with
  | nil => simp [mapLookup] at h
  | cons kv rest ih =>
      obtain ⟨k', v'⟩ := kv
      by_cases hk : k' = k
      · simp only [mapLookup, if_pos hk] at h
        subst hk
        injection h with h
        subst h
        exact hwf (k', v') (by simp)
      · simp only [mapLookup, if_neg hk] at h
        exact ih (fun kv hkv => hwf kv (List.mem_cons_of_mem _ hkv)) h

theorem MapWF_snoc (m : List (FontDescriptor × Font)) (f : Font)
    (hwf : MapWF m) : MapWF (m ++ [(f.descriptor, f)]) := by
  intro kv hkv
  rcases List.mem_append.mp hkv with h | h
  · exact hwf kv h
  · simp at h
    subst h
    rfl

/-- Unfolding of one `Style::new` insertion step. -/
theorem newAux_cons (m : List (FontDescriptor × Font)) (f : Font) (fs : List Font) :
    Style.newAux m (f :: fs) =
      match mapLookup m f.descriptor with
      | some old => .error (.DuplicateFont old.descriptor)
      | none => Style.newAux (mapInsert m f.descriptor f).2 fs := by
  simp only [Style.newAux, mapInsert_fst]

/-- With pairwise-distinct descriptors, none already present in the
accumulator, the insertion loop appends all bindings in order. -/
theorem newAux_ok (fs : List Font) : ∀ m : List (FontDescriptor × Font),
    (fs.map Font.descriptor).Nodup →
    (∀ f ∈ fs, mapLookup m f.descriptor = none) →
    Style.newAux m fs = .ok (m ++ fs.map (fun f => (f.descriptor, f))) := by
  induction fs with
  | nil => intro m _ _; simp [Style.newAux]
  | cons f fs ih =>
      intro m hnd habs
      have hl : mapLookup m f.descriptor = none := habs f (by simp)
      rw [newAux_cons, hl, mapInsert_snd_of_none _ _ _ hl]
      have hnd' : (fs.map Font.descriptor).Nodup := (List.nodup_cons.mp hnd).2
      have hnotin : f.descriptor ∉ fs.map Font.descriptor := (List.nodup_cons.mp hnd).1
      rw [ih (m ++ [(f.descriptor, f)]) hnd' ?habs']
      · simp
      · intro g hg
        rw [mapLookup_append_none _ _ _ (habs g (List.mem_cons_of_mem _ hg))]
        have hne : f.descriptor ≠ g.descriptor := by
          intro he
          exact hnotin (he ▸ List.mem_map_of_mem Font.descriptor hg)
        simp [mapLookup, hne]

/-- If the remaining fonts contain a duplicate descriptor, or one of them
collides with the accumulator, the insertion loop fails with a
`DuplicateFont` error naming a colliding descriptor. -/
theorem newAux_err (fs : List Font) : ∀ m : List (FontDescriptor × Font), MapWF m →
    (¬ (fs.map Font.descriptor).Nodup ∨ ∃ f ∈ fs, mapLookup m f.descriptor ≠ none) →
    ∃ d, Style.newAux m fs = .error (.DuplicateFont d) ∧
      d ∈ fs.map Font.descriptor ∧
      (mapLookup m d ≠ none ∨ 2 ≤ (fs.map Font.descriptor).count d) := by
  induction fs with
  | nil =>
      intro m _ h
      rcases h with h | ⟨f, hf, _⟩
      · simp at h
      · simp at hf
  | cons f fs ih =>
      intro m hwf h
      cases hl : mapLookup m f.descriptor with
      | some old =>
          refine ⟨f.descriptor, ?_, by simp, Or.inl (by simp [hl])⟩
          rw [newAux_cons, hl]
          show Except.error (StyleError.DuplicateFont old.descriptor) = _
          rw [mapLookup_wf m f.descriptor old hwf hl]
      | none =>
          rw [newAux_cons, hl, mapInsert_snd_of_none _ _ _ hl]
          set m' := m ++ [(f.descriptor, f)] with hm'
          have hwf' : MapWF m' := MapWF_snoc m f hwf
          have hrec : ¬ (fs.map Font.descriptor).Nodup ∨
              ∃ g ∈ fs, mapLookup m' g.descriptor ≠ none := by
            rcases h with h | ⟨g, hg, hgl⟩
            · rw [List.map_cons, List.nodup_cons] at h
              push_neg at h
              by_cases hin : f.descriptor ∈ fs.map Font.descriptor
              · obtain ⟨g, hg, hgd⟩ := List.mem_map.mp hin
                refine Or.inr ⟨g, hg, ?_⟩
                rw [hgd, hm', mapLookup_append_none _ _ _ hl]
                simp [mapLookup]
              · exact Or.inl (h hin)
            · rcases List.mem_cons.mp hg with rfl | hg'
              · exact absurd hl hgl
              · cases hgv : mapLookup m g.descriptor with
                | none => exact absurd hgv hgl
                | some v =>
                    exact Or.inr ⟨g, hg', by
                      rw [hm', mapLookup_append_some _ _ _ _ hgv]; simp⟩
          obtain ⟨d, herr, hmem, hside⟩ := ih m' hwf' hrec
          refine ⟨d, herr, List.mem_cons_of_mem _ hmem, ?_⟩
          rcases hside with hside | hside
          · cases hmd : mapLookup m d with
            | some v => exact Or.inl (by simp [hmd])
            | none =>
                rw [hm', mapLookup_append_none _ _ _ hmd] at hside
                have hd : d = f.descriptor := by
                  by_contra hne
                  exact hside (by simp [mapLookup, Ne.symm hne])
                refine Or.inr ?_
                rw [hd] at hmem ⊢
                rw [List.map_cons, List.count_cons_self]
                have h1 : 0 < (fs.map Font.descriptor).count f.descriptor :=
                  List.count_pos_iff.mpr hmem
                omega
          · refine Or.inr ?_
            rw [List.map_cons]
            rcases eq_or_ne f.descriptor d with rfl | hne
            · rw [List.count_cons_self]; omega
            · rw [List.count_cons_of_ne (Ne.symm hne)]; exact hside

/-- Claim C3: `Style::new` fails with `DuplicateFont` carrying a shared
descriptor whenever the input list contains two fonts with equal
`{name, weight, italic}` descriptors (paths may differ), and succeeds on
every list with pairwise-distinct descriptors, producing the style that
holds exactly those fonts. -/
theorem C3_style_new_duplicate_or_distinct :
    (∀ fonts : List Font, ¬ (fonts.map Font.descriptor).Nodup →
      ∃ d, Style.new fonts = .error (.DuplicateFont d) ∧
        2 ≤ (fonts.map Font.descriptor).count d) ∧
    (∀ fonts : List Font, (fonts.map Font.descriptor).Nodup →
      Style.new fonts = .ok (Style.mk (fonts.map (fun f => (f.descriptor, f))))) := by
  constructor
  · intro fonts hdup
    obtain ⟨d, herr, _, hside⟩ :=
      newAux_err fonts [] (by intro kv hkv; simp at hkv) (Or.inl hdup)
    refine ⟨d, ?_, ?_⟩
    · unfold Style.new
      rw [herr]
      rfl
    · rcases hside with hside | hside
      · simp [mapLookup] at hside
      · exact hside
  · intro fonts hnd
    unfold Style.new
    rw [newAux_ok fonts [] hnd (by intro f _; rfl)]
    rfl

/-- Claim C3 witness: two fonts sharing `{name, weight, italic}` but with
different paths are rejected with that shared descriptor, while two fonts
with distinct descriptors are accepted verbatim. -/
theorem C3_witness :
    (∃ d, Style.new [Font.new "some-font".data "/some/path/1".data 500 false,
        Font.new "some-font".data "/some/path/2".data 500 false] =
          .error (.DuplicateFont d) ∧
        2 ≤ (([Font.new "some-font".data "/some/path/1".data 500 false,
          Font.new "some-font".data "/some/path/2".data 500 false]).map
            Font.descriptor).count d) ∧
    Style.new [Font.new "a".data "/p1".data 400 false,
        Font.new "b".data "/p2".data 700 true] =
      .ok (Style.mk [(⟨"a".data, 400, false⟩, Font.new "a".data "/p1".data 400 false),
        (⟨"b".data, 700, true⟩, Font.new "b".data "/p2".data 700 true)]) :=
  ⟨C3_style_new_duplicate_or_distinct.1 _ (by decide),
   C3_style_new_duplicate_or_distinct.2 _ (by decide)⟩

/-- Claim C10: `PeekableTokenStream::peek` never returns `None` — for every
underlying token stream type and state it returns `Some` of a result
(`peek` stores `Some(self.next())` before returning it) — and consequently
the `unreachable!()` branch of `parse_style` can never execute: no `parse`
call, over any stream and any fuel, returns the `panicUnreachable`
outcome. -/
theorem C10_peek_never_none :
    ∀ (σ : Type) (nextFn : σ → TokenizerResult × σ),
      (∀ st : PeekableTokenStream σ, (PeekableTokenStream.peek nextFn st).1 ≠ none) ∧
      (∀ (fuel : Nat) (st : PeekableTokenStream σ),
        parse nextFn fuel st ≠ .error .panicUnreachable) := by
  intro σ nextFn
  constructor
  · intro st
    rw [peek_fst]
    simp
  · intro fuel st
    exact noUnreach_parse nextFn fuel st

/-- Claim C7, counterexample: a font block containing the bare keyword
`italic` followed by a comma is NOT accepted — on the full pipeline for
`metadata { title "T" } style { font { italic, } }` the parser rejects the
`KeywordItalic` token with `UnexpectedToken`, whose `expected` string does
not even list it. -/
theorem C7_counterexample_italic_rejected :
    parseText 20 "metadata \x7b title \"T\" \x7d style \x7b font \x7b italic, \x7d \x7d" =
      .error (.err (.UnexpectedToken "KeywordItalic"
        "KeywordName, KeywordPath, KeywordWeight or ClosingBrace"
        (SourceLocationRange.new (SourceLocation.new 0 39) (SourceLocation.new 0 44)))) := by
  decide

/-- Claim C7 as amended: within a font body the fields `name`, `path` and
`weight` may appear in any order and number, each followed by a mandatory
trailing comma — the loop is exactly a fold of the field updates, last
occurrence winning — and when all three are covered `parse_font` succeeds
with the collected values; omitting a comma is an `UnexpectedToken`
expecting `Comma`; the `italic` keyword is not accepted (`UnexpectedToken`
naming only name/path/weight/closing brace), so a parsed font's italic
flag is always false. -/
theorem C7_amended_font_fields :
    (∀ (fs : List FontField) (fuel : Nat) (rest : List TokenizerResult)
      (nm p : List Char) (w : Int), fs.length < fuel →
      (collectFields fs).name = some nm →
      (collectFields fs).path = some p →
      (collectFields fs).weight = some w →
      parse_font tsListNext fuel (mkPTS (tok0 .KeywordFont :: tok0 .OpeningBrace ::
          (renderFields fs ++ tok0 .ClosingBrace :: rest))) =
        .ok (Font.new nm p (intToU32 w) false, mkPTS rest)) ∧
    (∀ nm : List Char,
      parse_font tsListNext 5 (mkPTS [tok0 .KeywordFont, tok0 .OpeningBrace,
          tok0 .KeywordName, tok0 (.Name nm), tok0 .ClosingBrace]) =
        .error (.err (.UnexpectedToken "ClosingBrace" "Comma" loc0))) ∧
    parse_font tsListNext 5 (mkPTS [tok0 .KeywordFont, tok0 .OpeningBrace,
        tok0 .KeywordItalic, tok0 .Comma, tok0 .ClosingBrace]) =
      .error (.err (.UnexpectedToken "KeywordItalic"
        "KeywordName, KeywordPath, KeywordWeight or ClosingBrace" loc0)) := by
  refine ⟨?_, fun nm => rfl, by decide⟩
  intro fs fuel rest nm p w hf hn hp hw
  rw [parse_font_renders fs fuel rest hf]
  unfold parse_font_finish
  rw [hn, hp, hw]
  simp [collectFields_italic]

/-- Claim C7 witness: the order-independence part applied to a concrete
scrambled field order `path, name, weight`. -/
theorem C7_witness :
    parse_font tsListNext 5 (mkPTS (tok0 .KeywordFont :: tok0 .OpeningBrace ::
        (renderFields [.fPath "p".data, .fName "f".data, .fWeight 500] ++
          tok0 .ClosingBrace :: []))) =
      .ok (Font.new "f".data "p".data 500 false, mkPTS []) := by
  have h := C7_amended_font_fields.1 [.fPath "p".data, .fName "f".data, .fWeight 500]
    5 [] "f".data "p".data 500 (by decide) (by decide) (by decide) (by decide)
  have he : intToU32 500 = 500 := by decide
  rw [he] at h
  exact h

/-- Claim C4 as amended: a style block must contain exactly one font
declaration.  Zero font blocks (`style { }`) fail with `UnexpectedToken`
(actual `ClosingBrace`, expected `KeywordFont`); exactly one font block
succeeds, the resulting style holding exactly that font; a second font
block fails with `UnexpectedToken` (actual `KeywordFont`, expected
`ClosingBrace`). -/
theorem C4_amended_exactly_one_font :
    parseTokens 10 (metaToks "T".data ++
        [tok0 .KeywordStyle, tok0 .OpeningBrace, tok0 .ClosingBrace]) =
      .error (.err (.UnexpectedToken "ClosingBrace" "KeywordFont" loc0)) ∧
    (∀ (nm p : List Char) (w : Int),
      parseTokens 10 (metaToks "T".data ++
        [tok0 .KeywordStyle, tok0 .OpeningBrace, tok0 .KeywordFont, tok0 .OpeningBrace,
         tok0 .KeywordName, tok0 (.Name nm), tok0 .Comma,
         tok0 .KeywordPath, tok0 (.String p), tok0 .Comma,
         tok0 .KeywordWeight, tok0 (.Integer w), tok0 .Comma,
         tok0 .ClosingBrace, tok0 .ClosingBrace]) =
        .ok (Presentation.new "T".data []
          (Style.mk [(⟨nm, intToU32 w, false⟩, Font.new nm p (intToU32 w) false)]))) ∧
    parseTokens 20 (metaToks "T".data ++
        [tok0 .KeywordStyle, tok0 .OpeningBrace,
         tok0 .KeywordFont, tok0 .OpeningBrace,
         tok0 .KeywordName, tok0 (.Name "a".data), tok0 .Comma,
         tok0 .KeywordPath, tok0 (.String "p".data), tok0 .Comma,
         tok0 .KeywordWeight, tok0 (.Integer 1), tok0 .Comma,
         tok0 .ClosingBrace,
         tok0 .KeywordFont, tok0 .OpeningBrace, tok0 .ClosingBrace,
         tok0 .ClosingBrace]) =
      .error (.err (.UnexpectedToken "KeywordFont" "ClosingBrace" loc0)) := by
  refine ⟨by decide, fun nm p w => rfl, by decide⟩

/-- Claim C6 as amended: parsing `metadata { title "T" } notslide "S" {}`
fails with `UnexpectedToken` whose `expected` string names `KeywordSlide`
and `KeywordMetadata` (the code's message, although the dispatch actually
accepts slide/style), whose `actual` is `Name("notslide")`, and whose
location is exactly the range the tokenizer reported for that `Name`
token (the sixth token of the stream). -/
theorem C6_amended_unexpected_token :
    parseText 20 "metadata \x7b title \"T\" \x7d notslide \"S\" \x7b\x7d" =
      .error (.err (.UnexpectedToken "Name(\"notslide\")"
        "KeywordSlide or KeywordMetadata"
        (SourceLocationRange.new (SourceLocation.new 0 24) (SourceLocation.new 0 32)))) ∧
    containsSeq "KeywordSlide".data "KeywordSlide or KeywordMetadata".data = true ∧
    containsSeq "KeywordMetadata".data "KeywordSlide or KeywordMetadata".data = true ∧
    (runUntilEnd 30
        (Tokenizer.new "metadata \x7b title \"T\" \x7d notslide \"S\" \x7b\x7d")).get? 5 =
      some (.Ok (.Name "notslide".data)
        (SourceLocationRange.new (SourceLocation.new 0 24) (SourceLocation.new 0 32))) := by
  refine ⟨by decide, by decide, by decide, by decide⟩

/-- Claim C9: for every string literal the tokenizer accepts — an opening
quote, a body in which every backslash is immediately followed by a double
quote and every double quote is escaped, and a closing quote — the emitted
`String` token's value is the source text between the delimiters with
every two-character `\"` sequence collapsed to a single `"`. -/
theorem C9_string_escape_decode (b r : List Char) (t : Tokenizer)
    (hv : validBodyB b = true) (hfail : t.is_failed = false)
    (hinv : t.data.drop t.index = t.rest)
    (hrest : t.rest = '"' :: (b ++ '"' :: r)) :
    ∃ rng t', Tokenizer.next t = (.Ok (.String (replaceEsc b)) rng, t') :=
  string_token b r t hv hfail hinv hrest

/-- Claim C9 witness: the spec's example `"test\"escaped\"quote"` decodes
to the literal text `test"escaped"quote`. -/
theorem C9_witness :
    ∃ rng t', (Tokenizer.new "\"test\\\"escaped\\\"quote\"").next =
      (.Ok (.String "test\"escaped\"quote".data) rng, t') := by
  have h := C9_string_escape_decode "test\\\"escaped\\\"quote".data []
    (Tokenizer.new "\"test\\\"escaped\\\"quote\"") (by decide) (by decide)
    (by decide) (by decide)
  have he : replaceEsc "test\\\"escaped\\\"quote".data = "test\"escaped\"quote".data := by
    decide
  rw [he] at h
  exact h

/-- Claim C8: for every nonempty sequence of names — identifiers starting
with an ASCII letter, made of name characters, and not equal to a keyword —
joined by single commas, the tokenizer emits the strictly alternating
sequence `Name, Comma, Name, …, Name`: the comma is never absorbed into the
preceding name and never dropped. -/
theorem C8_names_commas_alternate (names : List (List Char)) (fuel : Nat)
    (hne : names ≠ [])
    (hval : ∀ n ∈ names, validNameB n = true ∧ keywordOf n = Token.Name n)
    (hfuel : 2 * names.length ≤ fuel) :
    (runUntilEnd fuel (Tokenizer.ofChars (joinNames names))).map resTok =
      (expectedToks names).map some :=
  names_tokenize names hne hval fuel (Tokenizer.ofChars (joinNames names)) hfuel rfl rfl rfl

/-- Claim C8 witness: the spec's examples `aa,bb,cc` and `a,b,c`. -/
theorem C8_witness :
    (runUntilEnd 6 (Tokenizer.ofChars (joinNames ["aa".data, "bb".data, "cc".data]))).map
        resTok =
      [some (.Name "aa".data), some .Comma, some (.Name "bb".data),
       some .Comma, some (.Name "cc".data)] ∧
    (runUntilEnd 6 (Tokenizer.ofChars (joinNames ["a".data, "b".data, "c".data]))).map
        resTok =
      [some (.Name "a".data), some .Comma, some (.Name "b".data),
       some .Comma, some (.Name "c".data)] := by
  constructor
  · exact (C8_names_commas_alternate ["aa".data, "bb".data, "cc".data] 6 (by decide)
      (by decide) (by decide)).trans (by decide)
  · exact (C8_names_commas_alternate ["a".data, "b".data, "c".data] 6 (by decide)
      (by decide) (by decide)).trans (by decide)

end Przntr
